import Mathlib

/-!
# File-name sanitisation and object-key resolution of the `s3` helper package

Shallow embedding of `internal/aws/s3/main.go`.  The package functions
`sanitizeFileName`, `extractObjectKeyFromURL` and `DefaultS3Service.Upload` are
translated statement by statement.  The Go standard library functions they call
(`strings.ToLower`, `strings.LastIndex`, `strings.ReplaceAll`,
`regexp.ReplaceAllString`, `strings.Trim`, `url.Parse`) are modelled after their Go
implementation (Go 1.22), on byte strings.

* A Go `string` is a list of bytes; `len` is the length of the list.
* A Go run-time panic (a slice expression with bounds out of range) is an explicit
  outcome of the model: `none` for `sanitizeFileName`, `KeyResult.panic` and
  `UploadResult.panic` for the other two.
* The Unicode case table read by `unicode.ToLower` for runes above U+007F is a
  parameter, `caseRanges`; every theorem holds for every table.
* Of the S3 client only the success or failure of `PutObject` is modelled.
-/

namespace s3

/-- A Go `string`: an immutable sequence of bytes.  Each element is one byte value. -/
abbrev GoString := List Nat

/-- The Go string written as an ASCII literal (one byte per character). -/
def ascii (s : String) : GoString := s.toList.map Char.toNat

/-- Go slice expression `s[lo:]`: panics (here `none`) unless `0 ≤ lo ≤ len(s)`. -/
def sliceFrom (s : GoString) (lo : Int) : Option GoString :=
  if 0 ≤ lo ∧ lo ≤ (s.length : Int) then some (s.drop lo.toNat) else none

/-- Go slice expression `s[:hi]`: panics (here `none`) unless `0 ≤ hi ≤ len(s)`. -/
def sliceTo (s : GoString) (hi : Int) : Option GoString :=
  if 0 ≤ hi ∧ hi ≤ (s.length : Int) then some (s.take hi.toNat) else none

/-! ## `unicode/utf8` -/

/-- The rune `utf8.RuneError`, U+FFFD. -/
def utf8.RuneError : Nat := 0xFFFD

/-- Go `utf8.DecodeRuneInString`: the first rune of `p` and its width in bytes.
An empty string gives `(RuneError, 0)`, an invalid or truncated encoding
`(RuneError, 1)`.  The accepted ranges of the second byte follow the table
`acceptRanges` (`E0: A0..BF`, `ED: 80..9F`, `F0: 90..BF`, `F4: 80..8F`, otherwise
`80..BF`); the masks `p0 & 0x1F`, `b & 0x3F` and the shifts are written with
`%` and `*`. -/
def utf8.DecodeRuneInString : GoString → Nat × Nat
  | [] => (utf8.RuneError, 0)
  | p0 :: rest =>
    if p0 < 0x80 then (p0, 1)
    else if p0 < 0xC2 ∨ 0xF4 < p0 then (utf8.RuneError, 1)
    else
      let sz := if p0 < 0xE0 then 2 else if p0 < 0xF0 then 3 else 4
      let lo := if p0 = 0xE0 then 0xA0 else if p0 = 0xF0 then 0x90 else 0x80
      let hi := if p0 = 0xED then 0x9F else if p0 = 0xF4 then 0x8F else 0xBF
      match rest with
      | [] => (utf8.RuneError, 1)
      | b1 :: rest1 =>
        if b1 < lo ∨ hi < b1 then (utf8.RuneError, 1)
        else if sz ≤ 2 then ((p0 % 32) * 64 + b1 % 64, 2)
        else
          match rest1 with
          | [] => (utf8.RuneError, 1)
          | b2 :: rest2 =>
            if b2 < 0x80 ∨ 0xBF < b2 then (utf8.RuneError, 1)
            else if sz ≤ 3 then ((p0 % 16) * 4096 + (b1 % 64) * 64 + b2 % 64, 3)
            else
              match rest2 with
              | [] => (utf8.RuneError, 1)
              | b3 :: _ =>
                if b3 < 0x80 ∨ 0xBF < b3 then (utf8.RuneError, 1)
                else ((p0 % 8) * 262144 + (b1 % 64) * 4096 + (b2 % 64) * 64 + b3 % 64, 4)

/-- Go `utf8.AppendRune` / `Builder.WriteRune`: the UTF-8 encoding of a rune;
surrogates and values above `MaxRune` are written as `RuneError`. -/
def utf8.EncodeRune (r : Nat) : GoString :=
  if r ≤ 0x7F then [r]
  else if r ≤ 0x7FF then [0xC0 + r / 64, 0x80 + r % 64]
  else if 0x10FFFF < r ∨ (0xD800 ≤ r ∧ r ≤ 0xDFFF) then [0xEF, 0xBF, 0xBD]
  else if r ≤ 0xFFFF then [0xE0 + r / 4096, 0x80 + r / 64 % 64, 0x80 + r % 64]
  else [0xF0 + r / 262144, 0x80 + r / 4096 % 64, 0x80 + r / 64 % 64, 0x80 + r % 64]

/-! ## `unicode` -/

/-- Go `unicode.ToLower`.  For `r ≤ MaxASCII` the function is the arithmetic on
`'A'..'Z'` written out in the Go source; above it consults the Unicode table
`CaseRanges`, which is data of the Go distribution and is taken here as the
parameter `caseRanges` (the lower-case mapping of a rune above U+007F). -/
def unicode.ToLower (caseRanges : Nat → Nat) (r : Nat) : Nat :=
  if r ≤ 0x7F then (if 0x41 ≤ r ∧ r ≤ 0x5A then r + (0x61 - 0x41) else r)
  else caseRanges r

/-! ## `strings` -/

/-- Second loop of Go `strings.Map`: every remaining rune is mapped and written.
`skip` counts the bytes of the current rune that are still to be passed over. -/
def strings.Map.rest (mapping : Nat → Nat) : Nat → GoString → GoString
  | _, [] => []
  | skip + 1, _ :: s => strings.Map.rest mapping skip s
  | 0, b :: s =>
    let cw := utf8.DecodeRuneInString (b :: s)
    utf8.EncodeRune (mapping cw.1) ++ strings.Map.rest mapping (cw.2 - 1) s

/-- First loop of Go `strings.Map`: `none` when no rune changes (and no invalid
byte is met), otherwise the output: the bytes before the first changed rune,
that rune mapped, and the rest mapped by the second loop. -/
def strings.Map.first (mapping : Nat → Nat) : Nat → GoString → Option GoString
  | _, [] => none
  | skip + 1, b :: s => (strings.Map.first mapping skip s).map (b :: ·)
  | 0, b :: s =>
    let cw := utf8.DecodeRuneInString (b :: s)
    let r := mapping cw.1
    if r = cw.1 ∧ ¬ (cw.1 = utf8.RuneError ∧ cw.2 = 1) then
      (strings.Map.first mapping (cw.2 - 1) s).map (b :: ·)
    else
      some (utf8.EncodeRune r ++ strings.Map.rest mapping (cw.2 - 1) s)

/-- Go `strings.Map` (for a mapping that never returns a negative rune). -/
def strings.Map (mapping : Nat → Nat) (s : GoString) : GoString :=
  match strings.Map.first mapping 0 s with
  | none => s
  | some out => out

/-- Go `strings.ToLower`: an all-ASCII string has its bytes `'A'..'Z'` shifted
to `'a'..'z'`; any other string goes through `Map(unicode.ToLower, s)`. -/
def strings.ToLower (caseRanges : Nat → Nat) (s : GoString) : GoString :=
  if s.all (fun c => decide (c < 0x80)) then
    s.map (fun c => if 0x41 ≤ c ∧ c ≤ 0x5A then c + (0x61 - 0x41) else c)
  else strings.Map (unicode.ToLower caseRanges) s

/-- Go `strings.LastIndex(s, sep)` for a one-byte separator `sep`; `none` is the
result `-1`. -/
def strings.LastIndex : GoString → Nat → Option Nat
  | [], _ => none
  | b :: s, sep =>
    match strings.LastIndex s sep with
    | some i => some (i + 1)
    | none => if b = sep then some 0 else none

/-- Go `strings.ReplaceAll(s, old, new)` for one-byte `old` and `new`. -/
def strings.ReplaceAll (s : GoString) (old new : Nat) : GoString :=
  s.map (fun c => if c = old then new else c)

/-- Go `strings.TrimLeft(s, cutset)` for an ASCII cutset. -/
def strings.TrimLeft (s cutset : GoString) : GoString :=
  s.dropWhile (fun c => decide (c ∈ cutset))

/-- Go `strings.TrimRight(s, cutset)` for an ASCII cutset. -/
def strings.TrimRight (s cutset : GoString) : GoString :=
  (s.reverse.dropWhile (fun c => decide (c ∈ cutset))).reverse

/-- Go `strings.Trim(s, cutset)` for an ASCII cutset: all leading and trailing
bytes contained in the cutset are removed (`trimLeftASCII(trimRightASCII(s, as), as)`). -/
def strings.Trim (s cutset : GoString) : GoString :=
  strings.TrimLeft (strings.TrimRight s cutset) cutset

/-- Go `strings.Index(s, sep)`: index of the first occurrence of `sep` in `s`;
`none` is the result `-1`. -/
def strings.Index : GoString → GoString → Option Nat
  | [], sep => if sep = [] then some 0 else none
  | b :: s, sep =>
    if sep.isPrefixOf (b :: s) then some 0 else (strings.Index s sep).map (· + 1)

/-- Go `strings.HasPrefix`. -/
def strings.HasPrefix (s pre : GoString) : Bool := pre.isPrefixOf s

/-- Go `strings.HasSuffix`. -/
def strings.HasSuffix (s suf : GoString) : Bool := suf.isSuffixOf s

/-- Go `strings.Contains(s, sep)` for a one-byte `sep`. -/
def strings.Contains (s : GoString) (sep : Nat) : Bool := s.contains sep

/-- Go `strings.Count(s, sep)` for a one-byte `sep`. -/
def strings.Count (s : GoString) (sep : Nat) : Nat := s.count sep

/-- Go `strings.Cut(s, sep)` for a one-byte `sep`: the text before and after the
first `sep`; without a `sep` the whole of `s` and the empty string. -/
def strings.Cut (s : GoString) (sep : Nat) : GoString × GoString :=
  (s.takeWhile (fun c => decide (c ≠ sep)), (s.dropWhile (fun c => decide (c ≠ sep))).drop 1)

/-! ## `regexp` -/

/-- Membership of a rune in the class `[^a-z0-9._-]` of the pattern compiled in
`sanitizeFileName`. -/
def reg.matchRune (r : Nat) : Bool :=
  !((0x61 ≤ r && r ≤ 0x7A) || (0x30 ≤ r && r ≤ 0x39) || r = 0x2E || r = 0x5F || r = 0x2D)

/-- Go `regexp`'s `inputString.step`: the rune at the current position and its
width. -/
def reg.step (s : GoString) : Nat × Nat :=
  match s with
  | [] => (utf8.RuneError, 0)
  | c :: _ => if c < 0x80 then (c, 1) else utf8.DecodeRuneInString s

/-- Scan of `reg.ReplaceAllString`: `inMatch` tells that the current position
continues a match of `[^a-z0-9._-]+` (whose replacement was already written),
`skip` counts the bytes of the current rune still to be passed over.  A rune
outside the class is one of `a-z0-9._-`, one byte wide, and is copied. -/
def reg.replaceLoop (repl : GoString) : Bool → Nat → GoString → GoString
  | _, _, [] => []
  | inMatch, skip + 1, _ :: s => reg.replaceLoop repl inMatch skip s
  | inMatch, 0, b :: s =>
    let rw := reg.step (b :: s)
    if reg.matchRune rw.1 then
      (if inMatch then [] else repl) ++ reg.replaceLoop repl true (rw.2 - 1) s
    else b :: reg.replaceLoop repl false 0 s

/-- Go `reg.ReplaceAllString(src, repl)` for `reg = regexp.MustCompile("[^a-z0-9._-]+")`
and a replacement without `$`: every leftmost-longest run of runes outside
`a-z0-9._-` is replaced by `repl`. -/
def reg.ReplaceAllString (src repl : GoString) : GoString :=
  reg.replaceLoop repl false 0 src

/-! ## `net/url`

Only the error result of `url.Parse` and the fields `Scheme`, `Opaque`, `Host`,
`Path`, `RawQuery` and `Fragment` of the parsed URL are modelled (`main.go` reads
`Path` alone). -/

deriving instance DecidableEq for Except

/-- The errors of `url.Parse` (the `err` of the `*url.Error` it returns). -/
inductive url.Error where
  /-- "net/url: invalid control character in URL" -/
  | invalidControlCharacter
  /-- "missing protocol scheme" -/
  | missingProtocolScheme
  /-- "first path segment in URL cannot contain colon" -/
  | firstPathSegmentColon
  /-- "net/url: invalid userinfo" -/
  | invalidUserinfo
  /-- "missing ']' in host" -/
  | missingBracket
  /-- "invalid port ... after host" -/
  | invalidPort (colonPort : GoString)
  /-- `EscapeError`: "invalid URL escape ..." -/
  | EscapeError (s : GoString)
  /-- `InvalidHostError`: "invalid character ... in host name" -/
  | InvalidHostError (s : GoString)
  deriving DecidableEq

/-- The fields of Go `url.URL` that are modelled. -/
structure url.URL where
  Scheme : GoString := []
  Opaque : GoString := []
  Host : GoString := []
  Path : GoString := []
  RawQuery : GoString := []
  Fragment : GoString := []
  deriving DecidableEq

/-- The `encoding` modes of `net/url`. -/
inductive url.encoding where
  | encodePath
  | encodePathSegment
  | encodeHost
  | encodeZone
  | encodeUserPassword
  | encodeQueryComponent
  | encodeFragment
  deriving DecidableEq

/-- Go `stringContainsCTLByte`: some byte is below `' '` or is `0x7f`. -/
def url.stringContainsCTLByte (s : GoString) : Bool :=
  s.any (fun b => decide (b < 0x20 ∨ b = 0x7F))

/-- Go `ishex`. -/
def url.ishex (c : Nat) : Bool :=
  (0x30 ≤ c && c ≤ 0x39) || (0x61 ≤ c && c ≤ 0x66) || (0x41 ≤ c && c ≤ 0x46)

/-- Go `unhex`. -/
def url.unhex (c : Nat) : Nat :=
  if 0x30 ≤ c ∧ c ≤ 0x39 then c - 0x30
  else if 0x61 ≤ c ∧ c ≤ 0x66 then c - 0x61 + 10
  else if 0x41 ≤ c ∧ c ≤ 0x46 then c - 0x41 + 10
  else 0

/-- Go `shouldEscape(c, mode)`. -/
def url.shouldEscape (c : Nat) (mode : url.encoding) : Bool :=
  if (0x61 ≤ c ∧ c ≤ 0x7A) ∨ (0x41 ≤ c ∧ c ≤ 0x5A) ∨ (0x30 ≤ c ∧ c ≤ 0x39) then false
  else if (mode = .encodeHost ∨ mode = .encodeZone) ∧
      c ∈ ascii "!$&\x27()*+,;=:[]<>\"" then false
  else if c ∈ ascii "-_.~" then false
  else if c ∈ ascii "$&+,/:;=?@" then
    match mode with
    | .encodePath => c = 0x3F
    | .encodePathSegment => c = 0x2F || c = 0x3B || c = 0x2C || c = 0x3F
    | .encodeUserPassword => c = 0x40 || c = 0x2F || c = 0x3F || c = 0x3A
    | .encodeQueryComponent => true
    | .encodeFragment => false
    | _ => true
  else if mode = .encodeFragment ∧ c ∈ ascii "!()*" then false
  else true

/-- Go `unescape(s, mode)`.  The Go function first checks every `%` escape and,
for a host or zone, every byte, returning the error of the first offending
position, and then decodes; here both are done in one pass from the left, with
the same result. -/
def url.unescape (mode : url.encoding) : GoString → Except url.Error GoString
  | [] => .ok []
  | c :: s =>
    if c = 0x25 then
      match s with
      | h1 :: h2 :: s2 =>
        if !(url.ishex h1 && url.ishex h2) then .error (.EscapeError [c, h1, h2])
        else if mode = .encodeHost ∧ url.unhex h1 < 8 ∧ [c, h1, h2] ≠ ascii "%25" then
          .error (.EscapeError [c, h1, h2])
        else if mode = .encodeZone ∧ [c, h1, h2] ≠ ascii "%25" ∧
            url.unhex h1 * 16 + url.unhex h2 ≠ 0x20 ∧
            url.shouldEscape (url.unhex h1 * 16 + url.unhex h2) .encodeHost then
          .error (.EscapeError [c, h1, h2])
        else (url.unescape mode s2).map ((url.unhex h1 * 16 + url.unhex h2) :: ·)
      | _ => .error (.EscapeError (c :: s))
    else if c = 0x2B then
      (url.unescape mode s).map ((if mode = .encodeQueryComponent then 0x20 else 0x2B) :: ·)
    else if (mode = .encodeHost ∨ mode = .encodeZone) ∧ c < 0x80 ∧
        url.shouldEscape c .encodeHost then
      .error (.InvalidHostError [c])
    else (url.unescape mode s).map (c :: ·)

/-- Loop of Go `getScheme`: `i` is the index of the first byte of the remaining
text `s` of `rawURL`. -/
def url.getScheme.loop (rawURL : GoString) : Nat → GoString →
    Except url.Error (GoString × GoString)
  | _, [] => .ok ([], rawURL)
  | i, c :: s =>
    if (0x61 ≤ c ∧ c ≤ 0x7A) ∨ (0x41 ≤ c ∧ c ≤ 0x5A) then url.getScheme.loop rawURL (i + 1) s
    else if (0x30 ≤ c ∧ c ≤ 0x39) ∨ c = 0x2B ∨ c = 0x2D ∨ c = 0x2E then
      if i = 0 then .ok ([], rawURL) else url.getScheme.loop rawURL (i + 1) s
    else if c = 0x3A then
      if i = 0 then .error .missingProtocolScheme else .ok (rawURL.take i, s)
    else .ok ([], rawURL)

/-- Go `getScheme(rawURL)`: the scheme and the text after its `:`; an empty
scheme and the whole text when there is none. -/
def url.getScheme (rawURL : GoString) : Except url.Error (GoString × GoString) :=
  url.getScheme.loop rawURL 0 rawURL

/-- Go `validOptionalPort`. -/
def url.validOptionalPort (port : GoString) : Bool :=
  match port with
  | [] => true
  | c :: digits => c = 0x3A && digits.all (fun b => decide (0x30 ≤ b ∧ b ≤ 0x39))

/-- Go `validUserinfo`. -/
def url.validUserinfo (s : GoString) : Bool :=
  s.all (fun r => (0x41 ≤ r && r ≤ 0x5A) || (0x61 ≤ r && r ≤ 0x7A) || (0x30 ≤ r && r ≤ 0x39)
    || decide (r ∈ ascii "-._:~!$&\x27()*+,;=%@"))

/-- Go `parseHost`. -/
def url.parseHost (host : GoString) : Except url.Error GoString :=
  if strings.HasPrefix host (ascii "[") then
    match strings.LastIndex host 0x5D with
    | none => .error .missingBracket
    | some i =>
      let colonPort := host.drop (i + 1)
      if !url.validOptionalPort colonPort then .error (.invalidPort colonPort)
      else
        match strings.Index (host.take i) (ascii "%25") with
        | some zone => do
          let host1 ← url.unescape .encodeHost (host.take zone)
          let host2 ← url.unescape .encodeZone ((host.take i).drop zone)
          let host3 ← url.unescape .encodeHost (host.drop i)
          pure (host1 ++ host2 ++ host3)
        | none => url.unescape .encodeHost host
  else
    match strings.LastIndex host 0x3A with
    | some i =>
      let colonPort := host.drop i
      if !url.validOptionalPort colonPort then .error (.invalidPort colonPort)
      else url.unescape .encodeHost host
    | none => url.unescape .encodeHost host

/-- Go `parseAuthority`, reduced to the host it returns and its error (the
`Userinfo` value is not modelled, its validation is). -/
def url.parseAuthority (authority : GoString) : Except url.Error GoString :=
  match strings.LastIndex authority 0x40 with
  | none => url.parseHost authority
  | some i => do
    let host ← url.parseHost (authority.drop (i + 1))
    let userinfo := authority.take i
    if !url.validUserinfo userinfo then throw .invalidUserinfo
    if !strings.Contains userinfo 0x3A then
      let _ ← url.unescape .encodeUserPassword userinfo
      pure host
    else
      let _ ← url.unescape .encodeUserPassword (strings.Cut userinfo 0x3A).1
      let _ ← url.unescape .encodeUserPassword (strings.Cut userinfo 0x3A).2
      pure host

/-- Go `parse(rawURL, viaRequest)` with `viaRequest = false`, as `url.Parse`
calls it.  The scheme returned by `getScheme` is ASCII, so that
`strings.ToLower` of it is the shift of `'A'..'Z'`. -/
def url.parse (rawURL : GoString) : Except url.Error url.URL := do
  if url.stringContainsCTLByte rawURL then throw .invalidControlCharacter
  if rawURL = ascii "*" then return { Path := ascii "*" }
  -- Split off possible leading "http:", "mailto:", etc.
  let (scheme, rest) ← url.getScheme rawURL
  let scheme := scheme.map (fun c => if 0x41 ≤ c ∧ c ≤ 0x5A then c + (0x61 - 0x41) else c)
  let (rest, rawQuery) :=
    if strings.HasSuffix rest (ascii "?") && strings.Count rest 0x3F == 1 then
      (rest.take (rest.length - 1), [])
    else strings.Cut rest 0x3F
  if !strings.HasPrefix rest (ascii "/") then
    if scheme ≠ [] then
      -- We consider rootless paths per RFC 3986 as opaque.
      return { Scheme := scheme, Opaque := rest, RawQuery := rawQuery }
    if strings.Contains (strings.Cut rest 0x2F).1 0x3A then
      -- First path segment has colon. Not allowed in relative URL.
      throw .firstPathSegmentColon
  let (host, rest) ←
    if (scheme ≠ [] || !strings.HasPrefix rest (ascii "///")) &&
        strings.HasPrefix rest (ascii "//") then
      let authority := rest.drop 2
      match strings.Index authority (ascii "/") with
      | some i => do
        let host ← url.parseAuthority (authority.take i)
        pure (host, authority.drop i)
      | none => do
        let host ← url.parseAuthority authority
        pure (host, [])
    else pure ([], rest)
  -- Set Path (setPath): the unescaped rest
  let path ← url.unescape .encodePath rest
  return { Scheme := scheme, Host := host, Path := path, RawQuery := rawQuery }

/-- Go `url.Parse(rawURL)`: the fragment is cut off at the first `#`, the rest
is parsed, and a non-empty fragment is unescaped (`setFragment`). -/
def url.Parse (rawURL : GoString) : Except url.Error url.URL := do
  let (u, frag) := strings.Cut rawURL 0x23
  let parsed ← url.parse u
  if frag = [] then return parsed
  let fragment ← url.unescape .encodeFragment frag
  return { parsed with Fragment := fragment }

/-! ## The package functions -/

/-- Go `sanitizeFileName` (main.go, lines 232-261).  `none` is a run-time panic
of one of the slice expressions. -/
def sanitizeFileName (caseRanges : Nat → Nat) (fileName : GoString) : Option GoString := do
  -- Ensure the file name is in lowercase
  let fileName := strings.ToLower caseRanges fileName
  -- Extract the file extension if it exists
  let (fileName, extension) ←
    match strings.LastIndex fileName 0x2E with
    | some idx => do
      let extension ← sliceFrom fileName idx
      let fileName ← sliceTo fileName idx
      pure (fileName, extension)
    | none => pure (fileName, [])
  -- Replace spaces with underscores
  let fileName := strings.ReplaceAll fileName 0x20 0x5F
  -- Allow only lowercase letters, numbers, periods, hyphens, and underscores
  let fileName := reg.ReplaceAllString fileName [0x5F]
  -- Ensure the file name starts and ends with a letter or number
  let fileName := strings.Trim fileName [0x2E, 0x5F, 0x2D]
  -- Limit the base file name to 1024 characters, accounting for the extension length
  let maxBaseLength : Int := 1024 - (extension.length : Int)
  let fileName ←
    if (fileName.length : Int) > maxBaseLength then sliceTo fileName maxBaseLength
    else pure fileName
  -- Return the sanitized file name with its extension
  pure (fileName ++ extension)


/-- What a call of `extractObjectKeyFromURL` does: it returns `objectKey, nil`,
it returns `"", fmt.Errorf("failed to parse S3 URL: %v", err)`, or it panics. -/
inductive KeyResult where
  | key (objectKey : GoString)
  | failedToParse (err : url.Error)
  | panic
  deriving DecidableEq

/-- Go `extractObjectKeyFromURL` (main.go, lines 220-229). -/
def extractObjectKeyFromURL (s3URL : GoString) : KeyResult :=
  match url.Parse s3URL with
  | .error err => .failedToParse err
  | .ok parsedURL =>
    -- The object key is the path of the URL without the leading '/'
    match sliceFrom parsedURL.Path 1 with
    | some objectKey => .key objectKey
    | none => .panic

/-- The receiver of `Upload`.  `client` is `none` for a nil client; of the
client only `PutObject` is used, and the function tells whether the call with
the given bucket, key and content type succeeds. -/
structure DefaultS3Service where
  client : Option (GoString → GoString → GoString → Bool)
  bucket : GoString

/-- What a call of `Upload` does: it returns `location, nil`, it returns an
error, or it panics. -/
inductive UploadResult where
  | location (url : GoString)
  | error
  | panic
  deriving DecidableEq

/-- Go `DefaultS3Service.Upload` (main.go, lines 101-138); `region` is
`configs.GetENV().AWS_REGION`. -/
def DefaultS3Service.Upload (caseRanges : Nat → Nat) (s : DefaultS3Service) (region : GoString)
    (filePath fileName : GoString) : UploadResult :=
  match s.client with
  | none => .error
  | some putObject =>
    match sanitizeFileName caseRanges fileName with
    | none => .panic
    | some sanitizedFileName =>
      let key := filePath ++ ascii "/" ++ sanitizedFileName
      let contentType :=
        if strings.HasSuffix sanitizedFileName (ascii ".csv") then ascii "text/csv"
        else if strings.HasSuffix sanitizedFileName (ascii ".pdf") then ascii "application/pdf"
        else ascii "application/octet-stream"
      if !putObject s.bucket key contentType then .error
      else
        .location (ascii "https://" ++ s.bucket ++ ascii ".s3." ++ region ++
          ascii ".amazonaws.com/" ++ key)

/-- A case table without entries: every rune above U+007F is its own lower case.
It instantiates `caseRanges` in closed statements on ASCII inputs, for which
`strings.ToLower` never reads the table. -/
def noCaseRanges : Nat → Nat := fun r => r


/-! ## Notions used in the statements -/

/-- The characters `a-z`, `0-9`, `.`, `_`, `-`. -/
def isSafeByte (c : Nat) : Bool :=
  (0x61 ≤ c && c ≤ 0x7A) || (0x30 ≤ c && c ≤ 0x39) || c = 0x2E || c = 0x5F || c = 0x2D

/-- The characters `.`, `_`, `-`. -/
def isSeparator (c : Nat) : Bool := c = 0x2E || c = 0x5F || c = 0x2D

/-- The extension of a name: its suffix starting at the last `.`, empty when the
name has no `.`. -/
def extension (s : GoString) : GoString :=
  if 0x2E ∈ s then 0x2E :: (s.reverse.takeWhile (fun c => decide (c ≠ 0x2E))).reverse else []

/-- The base of a name: what stands before its extension. -/
def baseName (s : GoString) : GoString := s.take (s.length - (extension s).length)

/-- The cleaned base of an input: the base of the lower-cased input after the
replacement of spaces, the replacement of the runs of other characters, and the
trimming (before any truncation). -/
def cleanedBase (caseRanges : Nat → Nat) (x : GoString) : GoString :=
  strings.Trim
    (reg.ReplaceAllString
      (strings.ReplaceAll (baseName (strings.ToLower caseRanges x)) 0x20 0x5F) [0x5F])
    [0x2E, 0x5F, 0x2D]

/-- The ASCII letters and digits. -/
def isAlphanumeric (c : Nat) : Bool :=
  (0x61 ≤ c && c ≤ 0x7A) || (0x41 ≤ c && c ≤ 0x5A) || (0x30 ≤ c && c ≤ 0x39)

/-- The bytes of a bucket or region name: `a-z`, `0-9`, `.`, `-`. -/
def isHostLabelByte (c : Nat) : Bool :=
  (0x61 ≤ c && c ≤ 0x7A) || (0x30 ≤ c && c ≤ 0x39) || c = 0x2E || c = 0x2D

/-- The bytes of a key that `url.Parse` hands back unchanged as part of a path:
every byte but the ASCII control characters, `#`, `%` and `?`. -/
def isPlainPathByte (c : Nat) : Bool :=
  !(decide (c < 0x20) || c = 0x7F || c = 0x23 || c = 0x25 || c = 0x3F)

/-- Byte-level reading of `reg.ReplaceAllString(·, "_")`: every maximal run of
bytes outside `a-z0-9._-` becomes one `_`.  `inRun` tells that the preceding
byte belonged to such a run. -/
def collapseRuns : Bool → GoString → GoString
  | _, [] => []
  | inRun, b :: s =>
    if isSafeByte b then b :: collapseRuns false s
    else if inRun then collapseRuns true s
    else 0x5F :: collapseRuns true s

/-! ## Lemmas on the `strings` functions -/

theorem takeWhile_append_stop (p : Nat → Bool) (l m : List Nat) (a : Nat)
    (hl : ∀ x ∈ l, p x = true) (ha : p a = false) :
    (l ++ a :: m).takeWhile p = l := by
  induction l with
  | nil => simp [List.takeWhile, ha]
  | cons b l ih =>
    have hb : p b = true := hl b (List.mem_cons_self b l)
    have := ih (fun x hx => hl x (List.mem_cons_of_mem b hx))
    simp [List.takeWhile, hb, this]

theorem extension_append (stem rest : GoString) (h : 0x2E ∉ rest) :
    extension (stem ++ 0x2E :: rest) = 0x2E :: rest := by
  have hmem : (0x2E : Nat) ∈ stem ++ 0x2E :: rest := by simp
  have hrev : (stem ++ 0x2E :: rest).reverse = rest.reverse ++ 0x2E :: stem.reverse := by simp
  have htw : (rest.reverse ++ 0x2E :: stem.reverse).takeWhile (fun c => decide (c ≠ 0x2E))
      = rest.reverse := by
    apply takeWhile_append_stop
    · intro x hx
      have hx2 : x ∈ rest := List.mem_reverse.mp hx
      have : x ≠ 0x2E := fun e => h (e ▸ hx2)
      simpa using this
    · simp
  unfold extension
  rw [if_pos hmem, hrev, htw, List.reverse_reverse]

theorem extension_of_not_mem (s : GoString) (h : 0x2E ∉ s) : extension s = [] := by
  unfold extension
  rw [if_neg h]

theorem LastIndex_none (s : GoString) (c : Nat) (h : strings.LastIndex s c = none) : c ∉ s := by
  induction s with
  | nil => simp
  | cons b s ih =>
    unfold strings.LastIndex at h
    cases hl : strings.LastIndex s c with
    | some i => rw [hl] at h; simp at h
    | none =>
      rw [hl] at h
      by_cases hb : b = c
      · simp [hb] at h
      · have := ih hl
        simp only [List.mem_cons, not_or]
        exact ⟨fun e => hb e.symm, this⟩

theorem LastIndex_some (s : GoString) (c i : Nat) (h : strings.LastIndex s c = some i) :
    ∃ rest, s = s.take i ++ c :: rest ∧ c ∉ rest ∧ s.drop i = c :: rest ∧ i < s.length := by
  induction s generalizing i with
  | nil => simp [strings.LastIndex] at h
  | cons b s ih =>
    unfold strings.LastIndex at h
    cases hl : strings.LastIndex s c with
    | some j =>
      rw [hl] at h
      simp only [Option.some.injEq] at h
      subst h
      obtain ⟨rest, h1, h2, h3, h4⟩ := ih j hl
      refine ⟨rest, ?_, h2, ?_, ?_⟩
      · simp only [List.take_succ_cons, List.cons_append]
        rw [← h1]
      · simpa using h3
      · simp only [List.length_cons]
        omega
    | none =>
      rw [hl] at h
      by_cases hb : b = c
      · simp only [hb, if_true, Option.some.injEq] at h
        subst h
        subst hb
        exact ⟨s, by simp, LastIndex_none s b hl, by simp, by simp⟩
      · simp [hb] at h

theorem LastIndex_of_not_mem (s : GoString) (c : Nat) (h : c ∉ s) :
    strings.LastIndex s c = none := by
  cases hL : strings.LastIndex s c with
  | none => rfl
  | some i =>
    obtain ⟨rest, h1, -, -, -⟩ := LastIndex_some s c i hL
    exact absurd (by rw [h1]; simp) h

theorem extension_baseName_of_LastIndex_some (s : GoString) (i : Nat)
    (h : strings.LastIndex s 0x2E = some i) :
    extension s = s.drop i ∧ baseName s = s.take i := by
  obtain ⟨rest, h1, h2, h3, h4⟩ := LastIndex_some s 0x2E i h
  have hext : extension s = 0x2E :: rest := by
    conv_lhs => rw [h1]
    exact extension_append _ _ h2
  refine ⟨by rw [hext, h3], ?_⟩
  unfold baseName
  have hlen : (extension s).length = s.length - i := by
    rw [hext, ← h3, List.length_drop]
  rw [hlen]
  congr 1
  omega

theorem extension_baseName_of_LastIndex_none (s : GoString)
    (h : strings.LastIndex s 0x2E = none) :
    extension s = [] ∧ baseName s = s := by
  have hext := extension_of_not_mem s (LastIndex_none s 0x2E h)
  refine ⟨hext, ?_⟩
  unfold baseName
  rw [hext]
  simp

theorem extension_cases (s : GoString) :
    (0x2E ∉ s ∧ extension s = [] ∧ baseName s = s) ∨
    ∃ stem rest, s = stem ++ 0x2E :: rest ∧ 0x2E ∉ rest ∧ extension s = 0x2E :: rest ∧
      baseName s = stem := by
  cases hL : strings.LastIndex s 0x2E with
  | none =>
    obtain ⟨h1, h2⟩ := extension_baseName_of_LastIndex_none s hL
    exact Or.inl ⟨LastIndex_none s _ hL, h1, h2⟩
  | some i =>
    obtain ⟨rest, h1, h2, h3, -⟩ := LastIndex_some s 0x2E i hL
    obtain ⟨h4, h5⟩ := extension_baseName_of_LastIndex_some s i hL
    exact Or.inr ⟨s.take i, rest, h1, h2, by rw [h4, h3], h5⟩

theorem extension_isSuffix (s : GoString) : extension s <:+ s := by
  by_cases h : (0x2E : Nat) ∈ s
  · obtain ⟨stem, rest, rfl⟩ := List.append_of_mem h
    cases hL : strings.LastIndex (stem ++ 0x2E :: rest) 0x2E with
    | none => exact absurd h (LastIndex_none _ _ hL)
    | some i =>
      rw [(extension_baseName_of_LastIndex_some _ i hL).1]
      exact List.drop_suffix _ _
  · rw [extension_of_not_mem s h]
    exact List.nil_suffix

theorem baseName_append (stem rest : GoString) (h : 0x2E ∉ rest) :
    baseName (stem ++ 0x2E :: rest) = stem := by
  unfold baseName
  rw [extension_append stem rest h]
  apply List.take_left'
  simp

theorem ReplaceAll_of_not_mem (s : GoString) (old new : Nat) (h : old ∉ s) :
    strings.ReplaceAll s old new = s := by
  unfold strings.ReplaceAll
  induction s with
  | nil => rfl
  | cons a l ih =>
    have ha : a ≠ old := fun e => h (by simp [e])
    have hl : old ∉ l := fun e => h (by simp [e])
    simp [ha, ih hl]

theorem ReplaceAll_replicate (n old new : Nat) :
    strings.ReplaceAll (List.replicate n old) old new = List.replicate n new := by
  unfold strings.ReplaceAll
  simp

theorem ReplaceAll_append (s₁ s₂ : GoString) (old new : Nat) :
    strings.ReplaceAll (s₁ ++ s₂) old new
      = strings.ReplaceAll s₁ old new ++ strings.ReplaceAll s₂ old new := by
  unfold strings.ReplaceAll
  simp

/-- On an all-ASCII input `strings.ToLower` never reads the case table. -/
theorem ToLower_ascii (caseRanges : Nat → Nat) (x : GoString)
    (h : x.all (fun c => decide (c < 0x80)) = true) :
    strings.ToLower caseRanges x = strings.ToLower noCaseRanges x := by
  unfold strings.ToLower
  rw [if_pos h, if_pos h]

/-- The ASCII shift of `strings.ToLower`. -/
theorem ToLower_of_alphanumeric (caseRanges : Nat → Nat) (u : GoString)
    (hu : ∀ c ∈ u, isAlphanumeric c = true) :
    strings.ToLower caseRanges u
        = u.map (fun c => if 0x41 ≤ c ∧ c ≤ 0x5A then c + (0x61 - 0x41) else c) ∧
      ∀ c ∈ strings.ToLower caseRanges u,
        ((0x61 ≤ c ∧ c ≤ 0x7A) ∨ (0x30 ≤ c ∧ c ≤ 0x39)) := by
  have hall : u.all (fun c => decide (c < 0x80)) = true := by
    rw [List.all_eq_true]
    intro c hc
    have := hu c hc
    simp only [isAlphanumeric, Bool.or_eq_true, Bool.and_eq_true, decide_eq_true_eq] at this
    simp only [decide_eq_true_eq]
    omega
  have heq : strings.ToLower caseRanges u
      = u.map (fun c => if 0x41 ≤ c ∧ c ≤ 0x5A then c + (0x61 - 0x41) else c) := by
    unfold strings.ToLower
    rw [if_pos hall]
  refine ⟨heq, ?_⟩
  rw [heq]
  intro c hc
  obtain ⟨a, ha, rfl⟩ := List.mem_map.mp hc
  have := hu a ha
  simp only [isAlphanumeric, Bool.or_eq_true, Bool.and_eq_true, decide_eq_true_eq] at this
  split_ifs <;> omega

theorem ToLower_of_lower_ascii (caseRanges : Nat → Nat) (r : GoString)
    (h : ∀ c ∈ r, c < 0x80 ∧ ¬ (0x41 ≤ c ∧ c ≤ 0x5A)) :
    strings.ToLower caseRanges r = r := by
  have hall : r.all (fun c => decide (c < 0x80)) = true := by
    rw [List.all_eq_true]
    intro c hc
    simpa using (h c hc).1
  unfold strings.ToLower
  rw [if_pos hall]
  induction r with
  | nil => rfl
  | cons a l ih =>
    have ha := (h a (by simp)).2
    have hl : ∀ c ∈ l, c < 0x80 ∧ ¬ (0x41 ≤ c ∧ c ≤ 0x5A) := fun c hc => h c (by simp [hc])
    have hall2 : l.all (fun c => decide (c < 0x80)) = true := by
      rw [List.all_eq_true]
      intro c hc
      simpa using (hl c hc).1
    simp only [List.map_cons, if_neg ha, ih hl hall2]

theorem Cut_of_not_mem (s : GoString) (c : Nat) (h : c ∉ s) : strings.Cut s c = (s, []) := by
  have hall : ∀ b ∈ s, (fun b => decide (b ≠ c)) b = true := by
    intro b hb
    have : b ≠ c := fun e => h (e ▸ hb)
    simpa using this
  unfold strings.Cut
  rw [List.takeWhile_eq_self_iff.mpr hall, List.dropWhile_eq_nil_iff.mpr hall]
  rfl

theorem Index_append_single (a b : GoString) (c : Nat) (h : c ∉ a) :
    strings.Index (a ++ c :: b) [c] = some a.length := by
  induction a with
  | nil => simp [strings.Index, List.isPrefixOf]
  | cons x a ih =>
    have hx : x ≠ c := fun e => h (by simp [e])
    have ha : c ∉ a := fun e => h (by simp [e])
    have hne : (c == x) = false := by simpa using fun e : c = x => hx e.symm
    simp [strings.Index, List.isPrefixOf, hne, ih ha]

/-! ## The regular expression read on bytes -/

/-- A rune that starts with a byte of `0x80` or more is itself `0x80` or more, and
the bytes it spans after the first are continuation bytes. -/
theorem DecodeRuneInString_high (b : Nat) (s : GoString) (hb : 0x80 ≤ b) :
    0x80 ≤ (utf8.DecodeRuneInString (b :: s)).1 ∧
      ∀ c ∈ s.take ((utf8.DecodeRuneInString (b :: s)).2 - 1), 0x80 ≤ c := by
  have h1 : ¬ b < 0x80 := by omega
  by_cases h2 : b < 0xC2 ∨ 0xF4 < b
  · simp [utf8.DecodeRuneInString, h1, h2, utf8.RuneError]
  rcases s with _ | ⟨b1, s1⟩
  · simp [utf8.DecodeRuneInString, h1, h2, utf8.RuneError]
  simp only [utf8.DecodeRuneInString, if_neg h1, if_neg h2]
  have hsz2 : (if b < 0xE0 then 2 else if b < 0xF0 then 3 else 4) ≤ 2 → b < 0xE0 := by
    split_ifs <;> omega
  have hsz3 : (if b < 0xE0 then 2 else if b < 0xF0 then 3 else 4) ≤ 3 → b < 0xF0 := by
    split_ifs <;> omega
  have hsz3n : ¬ (if b < 0xE0 then 2 else if b < 0xF0 then 3 else 4) ≤ 2 → 0xE0 ≤ b := by
    split_ifs <;> omega
  have hsz4n : ¬ (if b < 0xE0 then 2 else if b < 0xF0 then 3 else 4) ≤ 3 → 0xF0 ≤ b := by
    split_ifs <;> omega
  generalize (if b < 0xE0 then 2 else if b < 0xF0 then 3 else 4) = sz at *
  have hlo : 0x80 ≤ (if b = 0xE0 then 0xA0 else if b = 0xF0 then 0x90 else 0x80) := by
    split_ifs <;> omega
  have hlo3 : b = 0xE0 → 0xA0 ≤ (if b = 0xE0 then 0xA0 else if b = 0xF0 then 0x90 else 0x80) := by
    intro h; rw [if_pos h]
  have hlo4 : b = 0xF0 → 0x90 ≤ (if b = 0xE0 then 0xA0 else if b = 0xF0 then 0x90 else 0x80) := by
    intro h; simp [h]
  generalize (if b = 0xE0 then 0xA0 else if b = 0xF0 then 0x90 else 0x80) = lo at *
  have hhi : (if b = 0xED then 0x9F else if b = 0xF4 then 0x8F else 0xBF) ≤ 0xBF := by
    split_ifs <;> omega
  generalize (if b = 0xED then 0x9F else if b = 0xF4 then 0x8F else 0xBF) = hi at *
  by_cases hb1 : b1 < lo ∨ hi < b1
  · simp [if_pos hb1, utf8.RuneError]
  simp only [if_neg hb1]
  by_cases hs2 : sz ≤ 2
  · simp only [if_pos hs2]
    have := hsz2 hs2
    refine ⟨?_, ?_⟩
    · show 128 ≤ b % 32 * 64 + b1 % 64
      omega
    · intro c hc
      simp at hc
      omega
  simp only [if_neg hs2]
  have hE0 := hsz3n hs2
  rcases s1 with _ | ⟨b2, s2⟩
  · simp [utf8.RuneError]
  simp only []
  by_cases hb2 : b2 < 0x80 ∨ 0xBF < b2
  · simp [if_pos hb2, utf8.RuneError]
  simp only [if_neg hb2]
  by_cases hs3 : sz ≤ 3
  · simp only [if_pos hs3]
    have := hsz3 hs3
    refine ⟨?_, ?_⟩
    · show 128 ≤ b % 16 * 4096 + b1 % 64 * 64 + b2 % 64
      omega
    · intro c hc
      simp at hc
      omega
  simp only [if_neg hs3]
  have hF0 := hsz4n hs3
  rcases s2 with _ | ⟨b3, s3⟩
  · simp [utf8.RuneError]
  simp only []
  by_cases hb3 : b3 < 0x80 ∨ 0xBF < b3
  · simp [if_pos hb3, utf8.RuneError]
  simp only [if_neg hb3]
  refine ⟨?_, ?_⟩
  · show 128 ≤ b % 8 * 262144 + b1 % 64 * 4096 + b2 % 64 * 64 + b3 % 64
    omega
  · intro c hc
    simp at hc
    omega

theorem matchRune_eq_not_isSafeByte (c : Nat) : reg.matchRune c = !isSafeByte c := rfl

theorem isSafeByte_lt (c : Nat) (h : isSafeByte c = true) : c < 0x80 := by
  simp only [isSafeByte, Bool.or_eq_true, Bool.and_eq_true, decide_eq_true_eq] at h
  omega

theorem isSafeByte_of_high (c : Nat) (h : 0x80 ≤ c) : isSafeByte c = false := by
  cases hs : isSafeByte c with
  | false => rfl
  | true => have := isSafeByte_lt c hs; omega

/-- The rune-level scan of `reg.ReplaceAllString(·, "_")` and the byte-level
collapse of runs agree: a rune outside ASCII consists of bytes of `0x80` or more
only, none of which is in `a-z0-9._-`. -/
theorem replaceLoop_eq_collapseRuns (s : GoString) :
    ∀ (k : Nat) (inMatch : Bool), (∀ c ∈ s.take k, 0x80 ≤ c) → (0 < k → inMatch = true) →
      reg.replaceLoop [0x5F] inMatch k s = collapseRuns inMatch s := by
  induction s with
  | nil => intro k inMatch _ _; cases k <;> simp [reg.replaceLoop, collapseRuns]
  | cons b s ih =>
    intro k inMatch hk hin
    cases k with
    | succ k =>
      have hb : 0x80 ≤ b := hk b (by simp)
      have hin2 : inMatch = true := hin (by omega)
      subst hin2
      have hrest : ∀ c ∈ s.take k, 0x80 ≤ c := fun c hc => hk c (by simp [hc])
      simp only [reg.replaceLoop, collapseRuns, isSafeByte_of_high b hb, if_true]
      simpa using ih k true hrest (fun _ => rfl)
    | zero =>
      by_cases hb : b < 0x80
      · simp only [reg.replaceLoop, reg.step, if_pos hb, collapseRuns,
          matchRune_eq_not_isSafeByte]
        cases hs : isSafeByte b with
        | true =>
          simpa using ih 0 false (by simp) (by simp)
        | false =>
          have := ih 0 true (by simp) (by simp)
          cases inMatch <;> simp [this]
      · have hb2 : 0x80 ≤ b := by omega
        obtain ⟨hr, hbytes⟩ := DecodeRuneInString_high b s hb2
        have hm : reg.matchRune (utf8.DecodeRuneInString (b :: s)).1 = true := by
          rw [matchRune_eq_not_isSafeByte, isSafeByte_of_high _ hr]; rfl
        have := ih ((utf8.DecodeRuneInString (b :: s)).2 - 1) true hbytes (fun _ => rfl)
        simp only [reg.replaceLoop, reg.step, if_neg hb, collapseRuns, hm, if_true,
          isSafeByte_of_high b hb2, this]
        cases inMatch <;> simp

theorem ReplaceAllString_eq_collapseRuns (s : GoString) :
    reg.ReplaceAllString s [0x5F] = collapseRuns false s :=
  replaceLoop_eq_collapseRuns s 0 false (by simp) (by simp)

theorem collapseRuns_safe (s : GoString) : ∀ (inRun : Bool), ∀ c ∈ collapseRuns inRun s,
    isSafeByte c = true := by
  induction s with
  | nil => intro inRun c hc; simp [collapseRuns] at hc
  | cons b s ih =>
    intro inRun c hc
    unfold collapseRuns at hc
    split_ifs at hc with h1 h2
    · rcases List.mem_cons.mp hc with h | h
      · rw [h]; exact h1
      · exact ih false c h
    · exact ih true c hc
    · rcases List.mem_cons.mp hc with h | h
      · rw [h]; rfl
      · exact ih true c h

theorem collapseRuns_of_safe (s : GoString) (h : ∀ c ∈ s, isSafeByte c = true) :
    ∀ inRun, collapseRuns inRun s = s := by
  induction s with
  | nil => intro _; rfl
  | cons b s ih =>
    intro inRun
    have hb : isSafeByte b = true := h b (by simp)
    simp only [collapseRuns, hb, if_true]
    rw [ih (fun c hc => h c (by simp [hc]))]

theorem collapseRuns_mem (s : GoString) : ∀ (inRun : Bool), ∀ c ∈ collapseRuns inRun s,
    c ∈ s ∨ c = 0x5F := by
  induction s with
  | nil => intro inRun c hc; simp [collapseRuns] at hc
  | cons b s ih =>
    intro inRun c hc
    unfold collapseRuns at hc
    split_ifs at hc with h1 h2
    · rcases List.mem_cons.mp hc with h | h
      · exact Or.inl (by simp [h])
      · rcases ih false c h with h | h
        · exact Or.inl (by simp [h])
        · exact Or.inr h
    · rcases ih true c hc with h | h
      · exact Or.inl (by simp [h])
      · exact Or.inr h
    · rcases List.mem_cons.mp hc with h | h
      · exact Or.inr h
      · rcases ih true c h with h | h
        · exact Or.inl (by simp [h])
        · exact Or.inr h

/-! ## Lemmas on `strings.Trim` -/

theorem mem_cutset_iff (c : Nat) : c ∈ [0x2E, 0x5F, 0x2D] ↔ isSeparator c = true := by
  simp [isSeparator, or_assoc]

theorem head?_of_isPrefix {l₁ l₂ : GoString} (h : l₁ <+: l₂) (c : Nat)
    (hc : l₁.head? = some c) : l₂.head? = some c := by
  obtain ⟨t, rfl⟩ := h
  cases l₁ with
  | nil => simp at hc
  | cons a l => simpa using hc

theorem getLast?_of_isSuffix {l₁ l₂ : GoString} (h : l₁ <:+ l₂) (c : Nat)
    (hc : l₁.getLast? = some c) : l₂.getLast? = some c := by
  obtain ⟨t, rfl⟩ := h
  have hne : l₁ ≠ [] := by
    intro e
    rw [e] at hc
    simp at hc
  rw [List.getLast?_append_of_ne_nil _ hne]
  exact hc

theorem TrimRight_isPrefix (s cutset : GoString) : strings.TrimRight s cutset <+: s := by
  unfold strings.TrimRight
  have := List.dropWhile_suffix (l := s.reverse) (fun c => decide (c ∈ cutset))
  rw [← List.reverse_prefix] at this
  simpa using this

theorem TrimLeft_isSuffix (s cutset : GoString) : strings.TrimLeft s cutset <:+ s :=
  List.dropWhile_suffix _

theorem TrimLeft_head (s cutset : GoString) (c : Nat)
    (h : (strings.TrimLeft s cutset).head? = some c) : c ∉ cutset := by
  have := List.head?_dropWhile_not (fun c => decide (c ∈ cutset)) s
  unfold strings.TrimLeft at h
  rw [h] at this
  simpa using this

theorem TrimRight_getLast (s cutset : GoString) (c : Nat)
    (h : (strings.TrimRight s cutset).getLast? = some c) : c ∉ cutset := by
  have := List.head?_dropWhile_not (fun c => decide (c ∈ cutset)) s.reverse
  unfold strings.TrimRight at h
  rw [List.getLast?_reverse] at h
  rw [h] at this
  simpa using this

theorem Trim_subset (s cutset : GoString) : strings.Trim s cutset ⊆ s :=
  fun _ hc => (TrimRight_isPrefix s cutset).subset ((TrimLeft_isSuffix _ cutset).subset hc)

theorem Trim_head (s cutset : GoString) (c : Nat)
    (h : (strings.Trim s cutset).head? = some c) : c ∉ cutset :=
  TrimLeft_head _ cutset c h

theorem Trim_getLast (s cutset : GoString) (c : Nat)
    (h : (strings.Trim s cutset).getLast? = some c) : c ∉ cutset :=
  TrimRight_getLast s cutset c (getLast?_of_isSuffix (TrimLeft_isSuffix _ cutset) c h)

theorem Trim_of_ends (s cutset : GoString)
    (hh : ∀ c, s.head? = some c → c ∉ cutset) (hl : ∀ c, s.getLast? = some c → c ∉ cutset) :
    strings.Trim s cutset = s := by
  have hright : strings.TrimRight s cutset = s := by
    unfold strings.TrimRight
    cases hr : s.reverse with
    | nil => simp [List.reverse_eq_nil_iff.mp hr]
    | cons a l =>
      have hlast : s.getLast? = some a := by
        rw [← List.head?_reverse, hr]; rfl
      have : a ∉ cutset := hl a hlast
      simp only [List.dropWhile, this, decide_False]
      rw [← hr, List.reverse_reverse]
  unfold strings.Trim
  rw [hright]
  unfold strings.TrimLeft
  cases s with
  | nil => rfl
  | cons a l =>
    have : a ∉ cutset := hh a rfl
    simp [List.dropWhile, this]

/-! ## `sanitizeFileName` in closed form -/

/-- The result of `sanitizeFileName` in closed form: a panic exactly when the
extension is longer than 1024 bytes, otherwise the cleaned base cut to
`1024 - len(extension)` bytes, followed by the extension. -/
theorem sanitizeFileName_eq (caseRanges : Nat → Nat) (x : GoString) :
    sanitizeFileName caseRanges x =
      if 1024 < (extension (strings.ToLower caseRanges x)).length then none
      else some ((cleanedBase caseRanges x).take
        (1024 - (extension (strings.ToLower caseRanges x)).length)
          ++ extension (strings.ToLower caseRanges x)) := by
  unfold sanitizeFileName cleanedBase
  generalize strings.ToLower caseRanges x = l
  cases hL : strings.LastIndex l 0x2E with
  | none =>
    obtain ⟨hext, hbase⟩ := extension_baseName_of_LastIndex_none l hL
    rw [hext, hbase]
    simp only [hL, sliceTo, List.length_nil, Nat.sub_zero, Option.pure_def,
      Option.bind_eq_bind, Option.some_bind, List.append_nil]
    generalize strings.Trim (reg.ReplaceAllString (strings.ReplaceAll l 32 95) [95]) [46, 95, 45] = cb
    have h0 : ¬ (1024 < 0) := by omega
    by_cases hc : cb.length ≤ 1024
    · have h1 : ¬ ((cb.length : Int) > 1024 - ((0 : Nat) : Int)) := by omega
      simp only [h1, h0, if_false, List.take_of_length_le hc, Option.pure_def, Option.bind_eq_bind,
        Option.some_bind]
    · have h1 : ((cb.length : Int) > 1024 - ((0 : Nat) : Int)) := by omega
      have h2 : (0 : Int) ≤ 1024 - ((0 : Nat) : Int) ∧
          1024 - ((0 : Nat) : Int) ≤ (cb.length : Int) := by omega
      have h3 : (1024 - ((0 : Nat) : Int)).toNat = 1024 := by omega
      simp only [h1, h2, h3, h0, if_true, if_false, Option.pure_def, Option.bind_eq_bind,
        Option.some_bind, and_self]
  | some i =>
    obtain ⟨hext, hbase⟩ := extension_baseName_of_LastIndex_some l i hL
    obtain ⟨rest, -, -, -, hi⟩ := LastIndex_some l 0x2E i hL
    rw [hext, hbase]
    have hidx : (0 : Int) ≤ (i : Int) ∧ (i : Int) ≤ (l.length : Int) := by omega
    simp only [hL, sliceTo, sliceFrom, if_pos hidx, Int.toNat_ofNat, Option.pure_def,
      Option.bind_eq_bind, Option.some_bind]
    generalize strings.Trim (reg.ReplaceAllString (strings.ReplaceAll (l.take i) 32 95) [95])
      [46, 95, 45] = cb
    generalize l.drop i = e
    by_cases he : 1024 < e.length
    · have h1 : ((cb.length : Int) > 1024 - (e.length : Int)) := by omega
      have h2 : ¬ ((0 : Int) ≤ 1024 - (e.length : Int) ∧
          1024 - (e.length : Int) ≤ (cb.length : Int)) := by omega
      simp only [h1, h2, he, if_true, if_false, Option.none_bind]
    · by_cases hc : cb.length ≤ 1024 - e.length
      · have h1 : ¬ ((cb.length : Int) > 1024 - (e.length : Int)) := by omega
        simp only [h1, he, if_false, List.take_of_length_le hc, Option.some_bind]
      · have h1 : ((cb.length : Int) > 1024 - (e.length : Int)) := by omega
        have h2 : ((0 : Int) ≤ 1024 - (e.length : Int) ∧
            1024 - (e.length : Int) ≤ (cb.length : Int)) := by omega
        have h3 : (1024 - (e.length : Int)).toNat = 1024 - e.length := by omega
        simp only [h1, h2, he, h3, if_true, if_false, Option.some_bind, and_self]

/-- The panic of `sanitizeFileName` characterised: it happens exactly when the
extension of the lower-cased input is longer than 1024 bytes. -/
theorem sanitizeFileName_eq_none_iff (caseRanges : Nat → Nat) (x : GoString) :
    sanitizeFileName caseRanges x = none ↔
      1024 < (extension (strings.ToLower caseRanges x)).length := by
  rw [sanitizeFileName_eq]
  split_ifs with h <;> simp [h]

theorem sanitizeFileName_ascii (caseRanges : Nat → Nat) (x : GoString)
    (h : x.all (fun c => decide (c < 0x80)) = true) :
    sanitizeFileName caseRanges x = sanitizeFileName noCaseRanges x := by
  unfold sanitizeFileName
  rw [ToLower_ascii caseRanges x h]

theorem cleanedBase_safe (caseRanges : Nat → Nat) (x : GoString) :
    ∀ c ∈ cleanedBase caseRanges x, isSafeByte c = true := by
  intro c hc
  unfold cleanedBase at hc
  have := Trim_subset _ _ hc
  rw [ReplaceAllString_eq_collapseRuns] at this
  exact collapseRuns_safe _ _ c this

theorem cleanedBase_head (caseRanges : Nat → Nat) (x : GoString) (c : Nat)
    (h : (cleanedBase caseRanges x).head? = some c) : isSeparator c = false := by
  have := Trim_head _ _ c h
  rw [mem_cutset_iff] at this
  simpa using this

theorem cleanedBase_getLast (caseRanges : Nat → Nat) (x : GoString) (c : Nat)
    (h : (cleanedBase caseRanges x).getLast? = some c) : isSeparator c = false := by
  have := Trim_getLast _ _ c h
  rw [mem_cutset_iff] at this
  simpa using this

theorem cleanedBase_mem (caseRanges : Nat → Nat) (x : GoString) :
    ∀ c ∈ cleanedBase caseRanges x, c ∈ baseName (strings.ToLower caseRanges x) ∨ c = 0x5F := by
  intro c hc
  unfold cleanedBase at hc
  have h1 := Trim_subset _ _ hc
  rw [ReplaceAllString_eq_collapseRuns] at h1
  rcases collapseRuns_mem _ _ c h1 with h | h
  · unfold strings.ReplaceAll at h
    obtain ⟨a, ha, rfl⟩ := List.mem_map.mp h
    by_cases h20 : a = 0x20
    · right; simp [h20]
    · left; simpa [h20] using ha
  · exact Or.inr h

/-- Away from the truncation `sanitizeFileName` is idempotent: when the cleaned
base and the extension fit into 1024 bytes, and the result is in lower case
already (`strings.ToLower` leaves it unchanged), a second call returns its
argument. -/
theorem sanitizeFileName_idempotent_of_fit (caseRanges : Nat → Nat) (x r : GoString)
    (h : sanitizeFileName caseRanges x = some r)
    (hfit : (cleanedBase caseRanges x).length
      + (extension (strings.ToLower caseRanges x)).length ≤ 1024)
    (hlow : strings.ToLower caseRanges r = r) :
    sanitizeFileName caseRanges r = some r := by
  rw [sanitizeFileName_eq, if_neg (by omega), List.take_of_length_le (by omega)] at h
  simp only [Option.some.injEq] at h
  have hsafe := cleanedBase_safe caseRanges x
  have hno : ∀ d, isSafeByte d = true → d ≠ 0x20 := by
    intro d hd
    simp only [isSafeByte, Bool.or_eq_true, Bool.and_eq_true, decide_eq_true_eq] at hd
    omega
  have hparts : extension r = extension (strings.ToLower caseRanges x) ∧
      baseName r = cleanedBase caseRanges x := by
    rcases extension_cases (strings.ToLower caseRanges x) with ⟨h1, h2, h3⟩ | ⟨stem, rest, h1, h2, h3, h4⟩
    · rw [h2, List.append_nil] at h
      have hdot : 0x2E ∉ r := by
        rw [← h]
        intro hmem
        rcases cleanedBase_mem caseRanges x _ hmem with hm | hm
        · rw [h3] at hm; exact h1 hm
        · omega
      have hc := extension_cases r
      rcases hc with ⟨-, h5, h6⟩ | ⟨stem2, rest2, h5, -, -, -⟩
      · rw [h2, h5, h6, h]
        exact ⟨rfl, rfl⟩
      · exact absurd (by rw [h5]; simp) hdot
    · rw [h3] at h ⊢
      rw [← h]
      exact ⟨extension_append _ _ h2, baseName_append _ _ h2⟩
  have hcb : cleanedBase caseRanges r = cleanedBase caseRanges x := by
    conv_lhs => unfold cleanedBase
    rw [hlow, hparts.2, ReplaceAll_of_not_mem _ _ _ (fun hm => hno _ (hsafe _ hm) rfl),
      ReplaceAllString_eq_collapseRuns, collapseRuns_of_safe _ hsafe]
    apply Trim_of_ends
    · intro c hc
      have := cleanedBase_head caseRanges x c hc
      rw [mem_cutset_iff, this]
      exact Bool.noConfusion
    · intro c hc
      have := cleanedBase_getLast caseRanges x c hc
      rw [mem_cutset_iff, this]
      exact Bool.noConfusion
  rw [sanitizeFileName_eq, hlow, hparts.1, hcb, if_neg (by omega),
    List.take_of_length_le (by omega), h]

/-- For an ASCII input that is not cut by the length limit, a second call of
`sanitizeFileName` returns its argument. -/
theorem sanitizeFileName_idempotent_of_ascii_fit (caseRanges : Nat → Nat) (x r : GoString)
    (hx : x.all (fun c => decide (c < 0x80)) = true)
    (h : sanitizeFileName caseRanges x = some r)
    (hfit : (cleanedBase caseRanges x).length
      + (extension (strings.ToLower caseRanges x)).length ≤ 1024) :
    sanitizeFileName caseRanges r = some r := by
  apply sanitizeFileName_idempotent_of_fit caseRanges x r h hfit
  apply ToLower_of_lower_ascii
  have hr := h
  rw [sanitizeFileName_eq, if_neg (by omega), List.take_of_length_le (by omega)] at hr
  simp only [Option.some.injEq] at hr
  have hl : ∀ c ∈ strings.ToLower caseRanges x, c < 0x80 ∧ ¬ (0x41 ≤ c ∧ c ≤ 0x5A) := by
    intro c hc
    unfold strings.ToLower at hc
    rw [if_pos hx] at hc
    obtain ⟨a, ha, rfl⟩ := List.mem_map.mp hc
    have ha2 : a < 0x80 := by simpa using List.all_eq_true.mp hx a ha
    split_ifs <;> omega
  intro c hc
  rw [← hr] at hc
  rcases List.mem_append.mp hc with hc | hc
  · have := cleanedBase_safe caseRanges x c hc
    simp only [isSafeByte, Bool.or_eq_true, Bool.and_eq_true, decide_eq_true_eq] at this
    omega
  · exact hl c ((extension_isSuffix _).subset hc)


/-- At the bound: an extension of exactly 1024 bytes leaves no room for the base,
and the result is the extension alone. -/
theorem sanitizeFileName_of_extension_1024 (caseRanges : Nat → Nat) (x : GoString)
    (h : (extension (strings.ToLower caseRanges x)).length = 1024) :
    sanitizeFileName caseRanges x = some (extension (strings.ToLower caseRanges x)) := by
  rw [sanitizeFileName_eq, if_neg (by omega), h]
  simp

/-! ## Lemmas on `url.Parse` -/

/-- A path without `%` is its own unescaped form. -/
theorem unescape_path_of_no_percent (s : GoString) (h : 0x25 ∉ s) :
    url.unescape .encodePath s = .ok s := by
  induction s with
  | nil => rfl
  | cons c s ih =>
    have hc : c ≠ 0x25 := fun e => h (by simp [e])
    have hs : 0x25 ∉ s := fun e => h (by simp [e])
    unfold url.unescape
    rw [if_neg hc, ih hs]
    by_cases hp : c = 0x2B
    · simp [hp, Except.map]
    · simp [hp, Except.map]

theorem shouldEscape_host_of_label (c : Nat) (h : isHostLabelByte c = true) :
    url.shouldEscape c .encodeHost = false := by
  simp only [isHostLabelByte, Bool.or_eq_true, Bool.and_eq_true, decide_eq_true_eq] at h
  rcases h with ((h | h) | h) | h
  · unfold url.shouldEscape
    rw [if_pos (Or.inl h)]
  · unfold url.shouldEscape
    rw [if_pos (Or.inr (Or.inr h))]
  · subst h; decide
  · subst h; decide

/-- A host made of the bytes `a-z0-9.-` is its own unescaped form. -/
theorem unescape_host_of_label (s : GoString) (h : ∀ c ∈ s, isHostLabelByte c = true) :
    url.unescape .encodeHost s = .ok s := by
  induction s with
  | nil => rfl
  | cons c s ih =>
    have hc := h c (by simp)
    have hs : ∀ d ∈ s, isHostLabelByte d = true := fun d hd => h d (by simp [hd])
    have hesc := shouldEscape_host_of_label c hc
    simp only [isHostLabelByte, Bool.or_eq_true, Bool.and_eq_true, decide_eq_true_eq] at hc
    have h1 : c ≠ 0x25 := by omega
    have h2 : c ≠ 0x2B := by omega
    unfold url.unescape
    rw [if_neg h1, if_neg h2, ih hs, hesc]
    simp [Except.map]

theorem parse_location (host key : GoString) (hh : ∀ c ∈ host, isHostLabelByte c = true)
    (hne : host ≠ [])
    (hk : ∀ c ∈ key, isPlainPathByte c = true) :
    url.Parse (ascii "https://" ++ host ++ ascii "/" ++ key) =
      .ok { Scheme := ascii "https", Host := host, Path := ascii "/" ++ key } := by
  have hlit : ascii "https://" ++ host ++ ascii "/" ++ key
      = 104 :: 116 :: 116 :: 112 :: 115 :: 58 :: 47 :: 47 :: (host ++ 47 :: key) := by
    have h1 : ascii "https://" = [104, 116, 116, 112, 115, 58, 47, 47] := by decide
    have h2 : ascii "/" = [47] := by decide
    rw [h1, h2]
    simp
  rw [hlit]
  have hhost : ∀ c ∈ host, 0x20 ≤ c ∧ c ≠ 0x7F ∧ c ≠ 0x23 ∧ c ≠ 0x3F ∧ c ≠ 0x2F ∧ c ≠ 0x40 ∧
      c ≠ 0x3A ∧ c ≠ 0x5B := by
    intro c hc
    have := hh c hc
    simp only [isHostLabelByte, Bool.or_eq_true, Bool.and_eq_true, decide_eq_true_eq] at this
    omega
  have hkey : ∀ c ∈ key, 0x20 ≤ c ∧ c ≠ 0x7F ∧ c ≠ 0x23 ∧ c ≠ 0x3F ∧ c ≠ 0x25 := by
    intro c hc
    have := hk c hc
    simp only [isPlainPathByte, Bool.not_eq_true', Bool.or_eq_false_iff,
      decide_eq_false_iff_not] at this
    omega
  have hrest : ∀ c ∈ host ++ 47 :: key, 0x20 ≤ c ∧ c ≠ 0x7F ∧ c ≠ 0x23 ∧ c ≠ 0x3F := by
    intro c hc
    simp only [List.mem_append, List.mem_cons] at hc
    rcases hc with hc | hc | hc
    · have := hhost c hc; omega
    · omega
    · have := hkey c hc; omega
  have hslash : ascii "/" = [47] := by decide
  have hq : ascii "?" = [63] := by decide
  have hstar : ascii "*" = [42] := by decide
  have h3 : ascii "///" = [47, 47, 47] := by decide
  have h2 : ascii "//" = [47, 47] := by decide
  have hbr : ascii "[" = [91] := by decide
  have hhttps : ascii "https" = [104, 116, 116, 112, 115] := by decide
  have ha : strings.Cut (104 :: 116 :: 116 :: 112 :: 115 :: 58 :: 47 :: 47 :: (host ++ 47 :: key)) 0x23
      = (104 :: 116 :: 116 :: 112 :: 115 :: 58 :: 47 :: 47 :: (host ++ 47 :: key), []) := by
    apply Cut_of_not_mem
    intro hmem
    simp only [List.mem_cons] at hmem
    rcases hmem with h | h | h | h | h | h | h | h | h
    all_goals try omega
    have := hrest _ h
    omega
  have hb : url.stringContainsCTLByte
      (104 :: 116 :: 116 :: 112 :: 115 :: 58 :: 47 :: 47 :: (host ++ 47 :: key)) = false := by
    unfold url.stringContainsCTLByte
    rw [List.any_eq_false]
    intro c hmem
    simp only [List.mem_cons] at hmem
    simp only [decide_eq_true_eq]
    rcases hmem with h | h | h | h | h | h | h | h | h
    all_goals try omega
    have := hrest _ h
    omega
  have hd : url.getScheme (104 :: 116 :: 116 :: 112 :: 115 :: 58 :: 47 :: 47 :: (host ++ 47 :: key))
      = .ok ([104, 116, 116, 112, 115], 47 :: 47 :: (host ++ 47 :: key)) := by
    simp [url.getScheme, url.getScheme.loop]
  have hcount : strings.Count (47 :: 47 :: (host ++ 47 :: key)) 0x3F = 0 := by
    unfold strings.Count
    rw [List.count_eq_zero]
    intro hmem
    simp only [List.mem_cons] at hmem
    rcases hmem with h | h | h
    all_goals try omega
    have := hrest _ h
    omega
  have hf : strings.Cut (47 :: 47 :: (host ++ 47 :: key)) 0x3F
      = (47 :: 47 :: (host ++ 47 :: key), []) := by
    apply Cut_of_not_mem
    intro hmem
    simp only [List.mem_cons] at hmem
    rcases hmem with h | h | h
    all_goals try omega
    have := hrest _ h
    omega
  have hidx : strings.Index (host ++ 47 :: key) [47] = some host.length :=
    Index_append_single host key 47 (fun h => by have := hhost _ h; omega)
  have hj : url.parseAuthority host = .ok host := by
    unfold url.parseAuthority
    rw [LastIndex_of_not_mem host 0x40 (fun h => by have := hhost _ h; omega)]
    simp only []
    unfold url.parseHost
    have hpre : strings.HasPrefix host (ascii "[") = false := by
      obtain ⟨a, l, rfl⟩ := List.exists_cons_of_ne_nil hne
      have := hhost a (by simp)
      have hne2 : ((91 : Nat) == a) = false := by simpa using (fun e : 91 = a => by omega)
      simp [strings.HasPrefix, hbr, List.isPrefixOf, hne2]
    rw [hpre, LastIndex_of_not_mem host 0x3A (fun h => by have := hhost _ h; omega)]
    simp only [Bool.false_eq_true, if_false]
    exact unescape_host_of_label host hh
  have hkk : url.unescape .encodePath (47 :: key) = .ok (47 :: key) := by
    apply unescape_path_of_no_percent
    intro hmem
    simp only [List.mem_cons] at hmem
    rcases hmem with h | h
    · omega
    · have := hkey _ h; omega
  have hparse : url.parse (104 :: 116 :: 116 :: 112 :: 115 :: 58 :: 47 :: 47 :: (host ++ 47 :: key))
      = .ok { Scheme := [104, 116, 116, 112, 115], Host := host, Path := 47 :: key } := by
    have hsuf : (strings.HasSuffix (47 :: 47 :: (host ++ 47 :: key)) (ascii "?") &&
        strings.Count (47 :: 47 :: (host ++ 47 :: key)) 0x3F == 1) = false := by
      rw [hcount]; simp
    unfold url.parse
    simp only [hb, hd, hstar, hsuf, hf, h2, h3, hslash, strings.HasPrefix, List.isPrefixOf,
      List.drop, hidx, bind, Except.bind, pure, Except.pure]
    simp [hj, hkk]
  simp only [url.Parse, ha, hparse, hhttps, hslash]
  rfl

theorem Parse_error_of_parse_error (rawURL : GoString) (err : url.Error)
    (h : url.parse (strings.Cut rawURL 0x23).1 = .error err) : url.Parse rawURL = .error err := by
  unfold url.Parse
  simp [h, bind, Except.bind]

theorem parse_error_of_control_character (rawURL : GoString)
    (h : url.stringContainsCTLByte rawURL = true) :
    url.parse rawURL = .error .invalidControlCharacter := by
  unfold url.parse
  simp [h, bind, Except.bind]

theorem parse_error_of_leading_colon (l : GoString)
    (h : url.stringContainsCTLByte (0x3A :: l) = false) :
    url.parse (0x3A :: l) = .error .missingProtocolScheme := by
  have hstar : ascii "*" = [42] := by decide
  unfold url.parse
  simp [h, hstar, bind, Except.bind, pure, Except.pure, url.getScheme, url.getScheme.loop]

/-- The result of `extractObjectKeyFromURL` in terms of `url.Parse`: the parse
error is passed on; otherwise the first byte of the path is dropped, whatever it
is, and an empty path makes the slice expression `Path[1:]` panic. -/
theorem extractObjectKeyFromURL_eq (s3URL : GoString) :
    extractObjectKeyFromURL s3URL =
      match url.Parse s3URL with
      | .error err => .failedToParse err
      | .ok parsedURL => if parsedURL.Path = [] then .panic else .key (parsedURL.Path.drop 1) := by
  unfold extractObjectKeyFromURL
  cases url.Parse s3URL with
  | error err => rfl
  | ok parsedURL =>
    cases hp : parsedURL.Path with
    | nil => simp [sliceFrom, hp]
    | cons a l => simp [sliceFrom, hp]

/-- When the parsed path begins with `/`, the key is the path without that `/`. -/
theorem extractObjectKeyFromURL_of_rooted_path (s3URL key : GoString) (parsedURL : url.URL)
    (h : url.Parse s3URL = .ok parsedURL) (hp : parsedURL.Path = 0x2F :: key) :
    extractObjectKeyFromURL s3URL = .key key := by
  rw [extractObjectKeyFromURL_eq, h]
  simp [hp]

theorem extractObjectKeyFromURL_location (host key : GoString)
    (hh : ∀ c ∈ host, isHostLabelByte c = true) (hne : host ≠ [])
    (hk : ∀ c ∈ key, isPlainPathByte c = true) :
    extractObjectKeyFromURL (ascii "https://" ++ host ++ ascii "/" ++ key) = .key key := by
  rw [extractObjectKeyFromURL_eq, parse_location host key hh hne hk]
  have hslash : ascii "/" = [47] := by decide
  simp [hslash]

theorem Upload_ascii (caseRanges : Nat → Nat) (s : DefaultS3Service)
    (region filePath fileName : GoString)
    (h : fileName.all (fun c => decide (c < 0x80)) = true) :
    s.Upload caseRanges region filePath fileName
      = s.Upload noCaseRanges region filePath fileName := by
  unfold DefaultS3Service.Upload
  rw [sanitizeFileName_ascii caseRanges fileName h]

/-! ## The claims -/

set_option maxRecDepth 100000 in
/-- C1 at the failing input: for 1019 letters `a`, `_`, 100 letters `b` and `.txt`
the base is cut to 1020 bytes after the trimming, so that the result ends its
base with `_`; a second call trims that `_` and returns another name. -/
theorem sanitizeFileName_not_idempotent (caseRanges : Nat → Nat) :
    sanitizeFileName caseRanges
        (List.replicate 1019 0x61 ++ 0x5F :: List.replicate 100 0x62 ++ ascii ".txt")
      = some (List.replicate 1019 0x61 ++ ascii "_.txt") ∧
    sanitizeFileName caseRanges (List.replicate 1019 0x61 ++ ascii "_.txt")
      = some (List.replicate 1019 0x61 ++ ascii ".txt") ∧
    List.replicate 1019 0x61 ++ ascii "_.txt" ≠ List.replicate 1019 0x61 ++ ascii ".txt" := by
  refine ⟨?_, ?_, by decide⟩
  · rw [sanitizeFileName_ascii caseRanges _ (by decide)]; decide
  · rw [sanitizeFileName_ascii caseRanges _ (by decide)]; decide

/-- C2 (invariant of the result, as the code keeps it): whenever
`sanitizeFileName` returns, the result has at most 1024 bytes and is
`base ++ ext` with `ext` the unfiltered extension of the lower-cased input; every
character of `base` is in `a-z0-9._-`; the result starts with `.`, `-` or `_` only
when `base` is empty; and it ends with `.`, `-` or `_` only when the extension is
not empty or the cleaned base was cut by the length limit. -/
theorem sanitizeFileName_invariant (caseRanges : Nat → Nat) (x r : GoString)
    (h : sanitizeFileName caseRanges x = some r) :
    r.length ≤ 1024 ∧
    ∃ base, r = base ++ extension (strings.ToLower caseRanges x) ∧
      (∀ c ∈ base, isSafeByte c = true) ∧
      (∀ c, r.head? = some c → isSeparator c = true → base = []) ∧
      (∀ c, r.getLast? = some c → isSeparator c = true →
        extension (strings.ToLower caseRanges x) ≠ [] ∨
        1024 < (cleanedBase caseRanges x).length
          + (extension (strings.ToLower caseRanges x)).length) := by
  rw [sanitizeFileName_eq] at h
  split_ifs at h with hlong
  simp only [Option.some.injEq] at h
  subst h
  refine ⟨?_, (cleanedBase caseRanges x).take
    (1024 - (extension (strings.ToLower caseRanges x)).length), rfl, ?_, ?_, ?_⟩
  · rw [List.length_append, List.length_take]
    omega
  · intro c hc
    exact cleanedBase_safe caseRanges x c ((List.take_prefix _ _).subset hc)
  · intro c hc hsep
    by_contra hne
    obtain ⟨a, l, hal⟩ := List.exists_cons_of_ne_nil hne
    rw [hal, List.cons_append, List.head?_cons, Option.some.injEq] at hc
    subst hc
    have := cleanedBase_head caseRanges x a
      (head?_of_isPrefix (List.take_prefix _ _) a (by rw [hal]; rfl))
    rw [this] at hsep
    exact Bool.noConfusion hsep
  · intro c hc hsep
    by_contra hcon
    simp only [not_or, not_not, not_lt] at hcon
    obtain ⟨he, hfit⟩ := hcon
    rw [he] at hc hfit
    simp only [List.length_nil, Nat.add_zero, Nat.sub_zero, List.append_nil] at hc hfit
    rw [List.take_of_length_le hfit] at hc
    have := cleanedBase_getLast caseRanges x c hc
    rw [this] at hsep
    exact Bool.noConfusion hsep

theorem sanitizeFileName_invariant_witness :
    sanitizeFileName noCaseRanges (ascii "My File!!.CSV") = some (ascii "my_file.csv") ∧
    (ascii "my_file.csv").length ≤ 1024 ∧
    ∃ base, ascii "my_file.csv"
        = base ++ extension (strings.ToLower noCaseRanges (ascii "My File!!.CSV")) ∧
      (∀ c ∈ base, isSafeByte c = true) ∧
      (∀ c, (ascii "my_file.csv").head? = some c → isSeparator c = true → base = []) ∧
      (∀ c, (ascii "my_file.csv").getLast? = some c → isSeparator c = true →
        extension (strings.ToLower noCaseRanges (ascii "My File!!.CSV")) ≠ [] ∨
        1024 < (cleanedBase noCaseRanges (ascii "My File!!.CSV")).length
          + (extension (strings.ToLower noCaseRanges (ascii "My File!!.CSV"))).length) :=
  ⟨by decide, sanitizeFileName_invariant noCaseRanges (ascii "My File!!.CSV")
    (ascii "my_file.csv") (by decide)⟩

/-- C2 fails as stated: the extension is not filtered, so that `a.b c` keeps its
space; `a.` keeps its final `.`; and `   .hidden` gives `.hidden`, which starts
with `.`. -/
theorem sanitizeFileName_invariant_counterexample :
    (∀ caseRanges, sanitizeFileName caseRanges (ascii "a.b c") = some (ascii "a.b c")) ∧
    (0x20 ∈ ascii "a.b c" ∧ isSafeByte 0x20 = false) ∧
    (∀ caseRanges, sanitizeFileName caseRanges (ascii "a.") = some (ascii "a.")) ∧
    ((ascii "a.").getLast? = some 0x2E ∧ isSeparator 0x2E = true) ∧
    (∀ caseRanges, sanitizeFileName caseRanges (ascii "   .hidden") = some (ascii ".hidden")) ∧
    ((ascii ".hidden").head? = some 0x2E ∧ isSeparator 0x2E = true) := by
  refine ⟨fun t => ?_, by decide, fun t => ?_, by decide, fun t => ?_, by decide⟩
  · rw [sanitizeFileName_ascii t _ (by decide)]; decide
  · rw [sanitizeFileName_ascii t _ (by decide)]; decide
  · rw [sanitizeFileName_ascii t _ (by decide)]; decide

set_option maxRecDepth 100000 in
/-- C3 at the failing input: for the name `.` followed by 1024 letters `a` (an
extension of 1025 bytes) `maxBaseLength` is `-1`, the comparison
`len(fileName) > maxBaseLength` holds for the empty base, and the slice
`fileName[:maxBaseLength]` panics. -/
theorem sanitizeFileName_panics_on_long_extension (caseRanges : Nat → Nat) :
    sanitizeFileName caseRanges (0x2E :: List.replicate 1024 0x61) = none := by
  rw [sanitizeFileName_ascii caseRanges _ (by decide)]
  decide

/-- C4 (truncation): for every input whose extension has `e ≤ 1024` bytes and whose
cleaned base is longer than `1024 - e`, the result is the first `1024 - e` bytes of
the cleaned base followed by the unchanged extension, and has exactly 1024 bytes. -/
theorem sanitizeFileName_truncates (caseRanges : Nat → Nat) (x : GoString)
    (he : (extension (strings.ToLower caseRanges x)).length ≤ 1024)
    (hb : 1024 - (extension (strings.ToLower caseRanges x)).length
      < (cleanedBase caseRanges x).length) :
    sanitizeFileName caseRanges x =
        some ((cleanedBase caseRanges x).take
          (1024 - (extension (strings.ToLower caseRanges x)).length)
            ++ extension (strings.ToLower caseRanges x)) ∧
      ((cleanedBase caseRanges x).take
          (1024 - (extension (strings.ToLower caseRanges x)).length)
            ++ extension (strings.ToLower caseRanges x)).length = 1024 := by
  refine ⟨?_, ?_⟩
  · rw [sanitizeFileName_eq, if_neg (by omega)]
  · rw [List.length_append, List.length_take]
    omega

set_option maxRecDepth 100000 in
theorem sanitizeFileName_truncates_witness :
    ((extension (strings.ToLower noCaseRanges
        (List.replicate 1030 0x61 ++ ascii ".txt"))).length ≤ 1024 ∧
      1024 - (extension (strings.ToLower noCaseRanges
        (List.replicate 1030 0x61 ++ ascii ".txt"))).length
        < (cleanedBase noCaseRanges (List.replicate 1030 0x61 ++ ascii ".txt")).length) ∧
    sanitizeFileName noCaseRanges (List.replicate 1030 0x61 ++ ascii ".txt") =
      some (List.replicate 1020 0x61 ++ ascii ".txt") ∧
    (List.replicate 1020 0x61 ++ ascii ".txt").length = 1024 := by
  have h := sanitizeFileName_truncates noCaseRanges (List.replicate 1030 0x61 ++ ascii ".txt")
    (by decide) (by decide)
  have he : extension (strings.ToLower noCaseRanges (List.replicate 1030 0x61 ++ ascii ".txt"))
      = ascii ".txt" := by decide
  have hc : (cleanedBase noCaseRanges (List.replicate 1030 0x61 ++ ascii ".txt")).take
      (1024 - (ascii ".txt").length) = List.replicate 1020 0x61 := by decide
  refine ⟨⟨by decide, by decide⟩, ?_⟩
  rw [he, hc] at h
  exact h

/-- C5 at the failing inputs: a URL without a path
(`https://bucket.s3.region.amazonaws.com`) makes `parsedURL.Path[1:]` panic, and a
relative reference `folder/name.txt` loses its first character.  A path that
begins with `/` is returned without it. -/
theorem extractObjectKeyFromURL_first_byte_dropped :
    extractObjectKeyFromURL (ascii "https://bucket.s3.region.amazonaws.com") = .panic ∧
    extractObjectKeyFromURL (ascii "folder/name.txt") = .key (ascii "older/name.txt") ∧
    extractObjectKeyFromURL (ascii "https://bucket.s3.region.amazonaws.com/folder/name.txt")
      = .key (ascii "folder/name.txt") ∧
    extractObjectKeyFromURL (ascii "https://bucket.s3.region.amazonaws.com/") = .key [] := by
  decide

/-- C6 (as the code does it): `extractObjectKeyFromURL` returns the
"failed to parse S3 URL" error exactly when `url.Parse` returns an error, with that
error, and returns no key then.  `url.Parse` rejects in particular every input with
an ASCII control character before its first `#` and every input that starts with
`:`. -/
theorem extractObjectKeyFromURL_fails (s3URL : GoString) :
    (∀ err, extractObjectKeyFromURL s3URL = .failedToParse err ↔ url.Parse s3URL = .error err) ∧
    (url.stringContainsCTLByte (strings.Cut s3URL 0x23).1 = true →
      extractObjectKeyFromURL s3URL = .failedToParse .invalidControlCharacter) ∧
    (s3URL.head? = some 0x3A → ∃ err, extractObjectKeyFromURL s3URL = .failedToParse err) := by
  refine ⟨?_, ?_, ?_⟩
  · intro err
    rw [extractObjectKeyFromURL_eq]
    cases url.Parse s3URL with
    | error e => simp
    | ok u => by_cases hp : u.Path = [] <;> simp [hp]
  · intro hctl
    rw [extractObjectKeyFromURL_eq,
      Parse_error_of_parse_error _ _ (parse_error_of_control_character _ hctl)]
  · intro hhead
    rw [extractObjectKeyFromURL_eq]
    cases s3URL with
    | nil => simp at hhead
    | cons a l =>
      simp only [List.head?_cons, Option.some.injEq] at hhead
      subst hhead
      have hcut : (strings.Cut (0x3A :: l) 0x23).1
          = 0x3A :: l.takeWhile (fun c => decide (c ≠ 0x23)) := by
        simp [strings.Cut, List.takeWhile]
      cases hctl : url.stringContainsCTLByte (strings.Cut (0x3A :: l) 0x23).1 with
      | true =>
        refine ⟨.invalidControlCharacter, ?_⟩
        rw [Parse_error_of_parse_error _ _ (parse_error_of_control_character _ hctl)]
      | false =>
        refine ⟨.missingProtocolScheme, ?_⟩
        rw [hcut] at hctl
        rw [Parse_error_of_parse_error _ .missingProtocolScheme
          (by rw [hcut]; exact parse_error_of_leading_colon _ hctl)]

theorem extractObjectKeyFromURL_fails_witness :
    url.stringContainsCTLByte (strings.Cut (ascii "https://bucket/a\tb") 0x23).1 = true ∧
    extractObjectKeyFromURL (ascii "https://bucket/a\tb")
      = .failedToParse .invalidControlCharacter ∧
    extractObjectKeyFromURL (ascii ":8080/name.txt") = .failedToParse .missingProtocolScheme ∧
    url.Parse (ascii "https://bucket/%zz") = .error (.EscapeError (ascii "%zz")) ∧
    extractObjectKeyFromURL (ascii "https://bucket/%zz")
      = .failedToParse (.EscapeError (ascii "%zz")) :=
  ⟨by decide,
    (extractObjectKeyFromURL_fails (ascii "https://bucket/a\tb")).2.1 (by decide),
    by decide, by decide,
    ((extractObjectKeyFromURL_fails (ascii "https://bucket/%zz")).1 _).2 (by decide)⟩

/-- C6 fails as stated: `url.Parse` accepts `not a url` as a relative reference
with the path `not a url`, and the function returns the key `ot a url` and no
error. -/
theorem extractObjectKeyFromURL_not_a_url :
    url.Parse (ascii "not a url") = .ok { Path := ascii "not a url" } ∧
    extractObjectKeyFromURL (ascii "not a url") = .key (ascii "ot a url") := by
  decide

/-- C7 (round trip, as the code keeps it): let the bucket and the region consist of
the bytes `a-z0-9.-`, let `Upload` succeed with the sanitised name `name`, and let
the key `filePath/name` hold no ASCII control character, `#`, `%` or `?`.  Then the
location returned by `Upload` is
`https://{bucket}.s3.{region}.amazonaws.com/{key}` and
`extractObjectKeyFromURL` of it returns exactly the key, with no error. -/
theorem Upload_round_trip (caseRanges : Nat → Nat) (s : DefaultS3Service)
    (region filePath fileName name location : GoString)
    (hname : sanitizeFileName caseRanges fileName = some name)
    (hup : s.Upload caseRanges region filePath fileName = .location location)
    (hb : ∀ c ∈ s.bucket, isHostLabelByte c = true)
    (hr : ∀ c ∈ region, isHostLabelByte c = true)
    (hk : ∀ c ∈ filePath ++ ascii "/" ++ name, isPlainPathByte c = true) :
    location = ascii "https://" ++ s.bucket ++ ascii ".s3." ++ region
        ++ ascii ".amazonaws.com/" ++ (filePath ++ ascii "/" ++ name) ∧
      extractObjectKeyFromURL location = .key (filePath ++ ascii "/" ++ name) := by
  have hloc : location = ascii "https://" ++ s.bucket ++ ascii ".s3." ++ region
      ++ ascii ".amazonaws.com/" ++ (filePath ++ ascii "/" ++ name) := by
    unfold DefaultS3Service.Upload at hup
    cases hc : s.client with
    | none => rw [hc] at hup; simp at hup
    | some putObject =>
      rw [hc] at hup
      simp only [hname] at hup
      split_ifs at hup
      all_goals exact (UploadResult.location.inj hup).symm
  refine ⟨hloc, ?_⟩
  have hdom : ascii ".amazonaws.com/" = ascii ".amazonaws.com" ++ ascii "/" := by decide
  have hassoc : location = ascii "https://"
      ++ (s.bucket ++ ascii ".s3." ++ region ++ ascii ".amazonaws.com") ++ ascii "/"
      ++ (filePath ++ ascii "/" ++ name) := by
    rw [hloc, hdom]
    simp only [List.append_assoc]
  rw [hassoc]
  apply extractObjectKeyFromURL_location
  · intro c hc
    simp only [List.mem_append] at hc
    have h1 : ∀ d ∈ ascii ".s3.", isHostLabelByte d = true := by decide
    have h2 : ∀ d ∈ ascii ".amazonaws.com", isHostLabelByte d = true := by decide
    rcases hc with ((hc | hc) | hc) | hc
    · exact hb c hc
    · exact h1 c hc
    · exact hr c hc
    · exact h2 c hc
  · have h2 : ascii ".amazonaws.com" ≠ [] := by decide
    simp [h2]
  · exact hk

theorem Upload_round_trip_witness :
    (sanitizeFileName noCaseRanges (ascii "Sales Tax.Q1 2024") = some (ascii "sales_tax.q1 2024") ∧
      DefaultS3Service.Upload noCaseRanges
          { client := some (fun _ _ _ => true), bucket := ascii "bucket" }
          (ascii "eu-west-1") (ascii "") (ascii "Sales Tax.Q1 2024")
        = .location (ascii "https://bucket.s3.eu-west-1.amazonaws.com//sales_tax.q1 2024") ∧
      (∀ c ∈ ascii "bucket", isHostLabelByte c = true) ∧
      (∀ c ∈ ascii "eu-west-1", isHostLabelByte c = true) ∧
      (∀ c ∈ ascii "" ++ ascii "/" ++ ascii "sales_tax.q1 2024", isPlainPathByte c = true)) ∧
    (ascii "https://bucket.s3.eu-west-1.amazonaws.com//sales_tax.q1 2024"
        = ascii "https://" ++ ascii "bucket" ++ ascii ".s3." ++ ascii "eu-west-1"
          ++ ascii ".amazonaws.com/" ++ (ascii "" ++ ascii "/" ++ ascii "sales_tax.q1 2024") ∧
      extractObjectKeyFromURL (ascii "https://bucket.s3.eu-west-1.amazonaws.com//sales_tax.q1 2024")
        = .key (ascii "" ++ ascii "/" ++ ascii "sales_tax.q1 2024")) :=
  ⟨⟨by decide, by decide, by decide, by decide, by decide⟩,
    Upload_round_trip noCaseRanges
      { client := some (fun _ _ _ => true), bucket := ascii "bucket" }
      (ascii "eu-west-1") (ascii "") (ascii "Sales Tax.Q1 2024")
      (ascii "sales_tax.q1 2024")
      (ascii "https://bucket.s3.eu-west-1.amazonaws.com//sales_tax.q1 2024")
      (by decide) (by decide) (by decide) (by decide) (by decide)⟩

/-- C7 fails as stated: `Upload` writes the key into the location unescaped.  With
the file path `a?b` the location is `https://bucket.s3.region.amazonaws.com/a?b/x.txt`,
whose path is `/a`, and the key read back is `a`; with the file path `a%41` the key
read back is `aA/x.txt`; with the file path `a#b` it is `a`. -/
theorem Upload_round_trip_counterexample :
    ((∀ caseRanges, DefaultS3Service.Upload caseRanges
        { client := some (fun _ _ _ => true), bucket := ascii "bucket" }
        (ascii "region") (ascii "a?b") (ascii "x.txt")
      = .location (ascii "https://bucket.s3.region.amazonaws.com/a?b/x.txt")) ∧
      extractObjectKeyFromURL (ascii "https://bucket.s3.region.amazonaws.com/a?b/x.txt")
        = .key (ascii "a") ∧
      ascii "a" ≠ ascii "a?b/x.txt") ∧
    ((∀ caseRanges, DefaultS3Service.Upload caseRanges
        { client := some (fun _ _ _ => true), bucket := ascii "bucket" }
        (ascii "region") (ascii "a%41") (ascii "x.txt")
      = .location (ascii "https://bucket.s3.region.amazonaws.com/a%41/x.txt")) ∧
      extractObjectKeyFromURL (ascii "https://bucket.s3.region.amazonaws.com/a%41/x.txt")
        = .key (ascii "aA/x.txt") ∧
      ascii "aA/x.txt" ≠ ascii "a%41/x.txt") ∧
    ((∀ caseRanges, DefaultS3Service.Upload caseRanges
        { client := some (fun _ _ _ => true), bucket := ascii "bucket" }
        (ascii "region") (ascii "a#b") (ascii "x.txt")
      = .location (ascii "https://bucket.s3.region.amazonaws.com/a#b/x.txt")) ∧
      extractObjectKeyFromURL (ascii "https://bucket.s3.region.amazonaws.com/a#b/x.txt")
        = .key (ascii "a") ∧
      ascii "a" ≠ ascii "a#b/x.txt") := by
  refine ⟨⟨fun t => ?_, by decide, by decide⟩, ⟨fun t => ?_, by decide, by decide⟩,
    ⟨fun t => ?_, by decide, by decide⟩⟩
  · rw [Upload_ascii t _ _ _ _ (by decide)]; decide
  · rw [Upload_ascii t _ _ _ _ (by decide)]; decide
  · rw [Upload_ascii t _ _ _ _ (by decide)]; decide

/-- C8 (as the code does it): each space of the base becomes one underscore.  For
non-empty alphanumeric words `u`, `v` and every `n`, the name `u`, `n` spaces,
`v`, `.txt` is sanitised to `lower(u)`, `n` underscores, `lower(v)` — cut to 1020
bytes — followed by `.txt`; when the name has at most 1024 bytes nothing is cut. -/
theorem sanitizeFileName_spaces (caseRanges : Nat → Nat) (u v : GoString) (n : Nat)
    (hu : u ≠ []) (hv : v ≠ [])
    (hua : ∀ c ∈ u, isAlphanumeric c = true) (hva : ∀ c ∈ v, isAlphanumeric c = true) :
    sanitizeFileName caseRanges (u ++ List.replicate n 0x20 ++ v ++ ascii ".txt") =
        some ((strings.ToLower caseRanges u ++ List.replicate n 0x5F
          ++ strings.ToLower caseRanges v).take 1020 ++ ascii ".txt") ∧
      (u.length + n + v.length + 4 ≤ 1024 →
        sanitizeFileName caseRanges (u ++ List.replicate n 0x20 ++ v ++ ascii ".txt") =
          some (strings.ToLower caseRanges u ++ List.replicate n 0x5F
            ++ strings.ToLower caseRanges v ++ ascii ".txt")) := by
  obtain ⟨hlu, hlu2⟩ := ToLower_of_alphanumeric caseRanges u hua
  obtain ⟨hlv, hlv2⟩ := ToLower_of_alphanumeric caseRanges v hva
  have hall : (u ++ List.replicate n 0x20 ++ v ++ ascii ".txt").all
      (fun c => decide (c < 0x80)) = true := by
    rw [List.all_eq_true]
    intro c hc
    simp only [List.mem_append, List.mem_replicate] at hc
    simp only [decide_eq_true_eq]
    rcases hc with ((hc | hc) | hc) | hc
    · have := hua c hc
      simp only [isAlphanumeric, Bool.or_eq_true, Bool.and_eq_true, decide_eq_true_eq] at this
      omega
    · omega
    · have := hva c hc
      simp only [isAlphanumeric, Bool.or_eq_true, Bool.and_eq_true, decide_eq_true_eq] at this
      omega
    · have h4 : ∀ d ∈ ascii ".txt", d < 0x80 := by decide
      exact h4 c hc
  have hlow : strings.ToLower caseRanges (u ++ List.replicate n 0x20 ++ v ++ ascii ".txt")
      = (strings.ToLower caseRanges u ++ List.replicate n 0x20 ++ strings.ToLower caseRanges v)
        ++ 0x2E :: ascii "txt" := by
    have h4 : (ascii ".txt").map (fun c => if 0x41 ≤ c ∧ c ≤ 0x5A then c + (0x61 - 0x41) else c)
        = 0x2E :: ascii "txt" := by decide
    rw [hlu, hlv]
    unfold strings.ToLower
    rw [if_pos hall]
    simp only [List.map_append, h4, List.map_replicate]
    rfl
  have hnd : ∀ c, ((0x61 ≤ c ∧ c ≤ 0x7A) ∨ (0x30 ≤ c ∧ c ≤ 0x39)) →
      c ≠ 0x20 ∧ isSafeByte c = true ∧ c ∉ [0x2E, 0x5F, 0x2D] := by
    intro c hc
    refine ⟨by omega, ?_, ?_⟩
    · simp only [isSafeByte, Bool.or_eq_true, Bool.and_eq_true, decide_eq_true_eq]
      omega
    · simp only [List.mem_cons, List.mem_singleton, List.not_mem_nil, or_false]
      omega
  have hulow : strings.ToLower caseRanges u ≠ [] := by
    rw [hlu]; simpa using hu
  have hvlow : strings.ToLower caseRanges v ≠ [] := by
    rw [hlv]; simpa using hv
  generalize strings.ToLower caseRanges u = lu at *
  generalize strings.ToLower caseRanges v = lv at *
  have hext : extension ((lu ++ List.replicate n 0x20 ++ lv) ++ 0x2E :: ascii "txt")
      = ascii ".txt" := extension_append _ _ (by decide)
  have hbase : baseName ((lu ++ List.replicate n 0x20 ++ lv) ++ 0x2E :: ascii "txt")
      = lu ++ List.replicate n 0x20 ++ lv := baseName_append _ _ (by decide)
  have hrep : strings.ReplaceAll (lu ++ List.replicate n 0x20 ++ lv) 0x20 0x5F
      = lu ++ List.replicate n 0x5F ++ lv := by
    rw [ReplaceAll_append, ReplaceAll_append, ReplaceAll_replicate,
      ReplaceAll_of_not_mem lu _ _ (fun h => (hnd _ (hlu2 _ h)).1 rfl),
      ReplaceAll_of_not_mem lv _ _ (fun h => (hnd _ (hlv2 _ h)).1 rfl)]
  have hsafe : ∀ c ∈ lu ++ List.replicate n 0x5F ++ lv, isSafeByte c = true := by
    intro c hc
    simp only [List.mem_append, List.mem_replicate] at hc
    rcases hc with (hc | hc) | hc
    · exact (hnd c (hlu2 c hc)).2.1
    · rw [hc.2]; rfl
    · exact (hnd c (hlv2 c hc)).2.1
  have hreg : reg.ReplaceAllString (lu ++ List.replicate n 0x5F ++ lv) [0x5F]
      = lu ++ List.replicate n 0x5F ++ lv := by
    rw [ReplaceAllString_eq_collapseRuns, collapseRuns_of_safe _ hsafe]
  have htrim : strings.Trim (lu ++ List.replicate n 0x5F ++ lv) [0x2E, 0x5F, 0x2D]
      = lu ++ List.replicate n 0x5F ++ lv := by
    apply Trim_of_ends
    · intro c hc
      obtain ⟨a, l, hal⟩ := List.exists_cons_of_ne_nil hulow
      rw [hal] at hc
      simp only [List.cons_append, List.head?_cons, Option.some.injEq] at hc
      subst hc
      exact (hnd a (hlu2 a (by rw [hal]; simp))).2.2
    · intro c hc
      rw [List.getLast?_append_of_ne_nil _ hvlow] at hc
      have hmem : c ∈ lv := List.mem_of_getLast?_eq_some hc
      exact (hnd c (hlv2 c hmem)).2.2
  have hcb : cleanedBase caseRanges (u ++ List.replicate n 0x20 ++ v ++ ascii ".txt")
      = lu ++ List.replicate n 0x5F ++ lv := by
    unfold cleanedBase
    rw [hlow, hbase, hrep, hreg, htrim]
  have hmain : sanitizeFileName caseRanges (u ++ List.replicate n 0x20 ++ v ++ ascii ".txt") =
      some ((lu ++ List.replicate n 0x5F ++ lv).take 1020 ++ ascii ".txt") := by
    rw [sanitizeFileName_eq, hcb, hlow, hext]
    have h4 : (ascii ".txt").length = 4 := by decide
    rw [h4, if_neg (by omega)]
  refine ⟨hmain, fun hlen => ?_⟩
  rw [hmain, List.take_of_length_le]
  have h1 : lu.length = u.length := by rw [hlu, List.length_map]
  have h2 : lv.length = v.length := by rw [hlv, List.length_map]
  simp only [List.length_append, List.length_replicate]
  omega

theorem sanitizeFileName_spaces_witness :
    (ascii "Tax" ≠ [] ∧ ascii "2024" ≠ [] ∧ (∀ c ∈ ascii "Tax", isAlphanumeric c = true) ∧
      (∀ c ∈ ascii "2024", isAlphanumeric c = true)) ∧
    (sanitizeFileName noCaseRanges (ascii "Tax" ++ List.replicate 3 0x20 ++ ascii "2024"
        ++ ascii ".txt") =
        some ((strings.ToLower noCaseRanges (ascii "Tax") ++ List.replicate 3 0x5F
          ++ strings.ToLower noCaseRanges (ascii "2024")).take 1020 ++ ascii ".txt") ∧
      ((ascii "Tax").length + 3 + (ascii "2024").length + 4 ≤ 1024 →
        sanitizeFileName noCaseRanges (ascii "Tax" ++ List.replicate 3 0x20 ++ ascii "2024"
          ++ ascii ".txt") =
          some (strings.ToLower noCaseRanges (ascii "Tax") ++ List.replicate 3 0x5F
            ++ strings.ToLower noCaseRanges (ascii "2024") ++ ascii ".txt"))) :=
  ⟨⟨by decide, by decide, by decide, by decide⟩,
    sanitizeFileName_spaces noCaseRanges (ascii "Tax") (ascii "2024") 3
      (by decide) (by decide) (by decide) (by decide)⟩

/-- C8 fails as stated: two spaces give two underscores, `a  b.txt` becomes
`a__b.txt` and not `a_b.txt`. -/
theorem sanitizeFileName_spaces_counterexample :
    (∀ caseRanges, sanitizeFileName caseRanges (ascii "a  b.txt") = some (ascii "a__b.txt")) ∧
    ascii "a__b.txt" ≠ ascii "a_b.txt" := by
  refine ⟨fun t => ?_, by decide⟩
  rw [sanitizeFileName_ascii t _ (by decide)]
  decide

/-- C9: `sanitizeFileName("My File!!.CSV") = "my_file.csv"`. -/
theorem sanitizeFileName_my_file (caseRanges : Nat → Nat) :
    sanitizeFileName caseRanges (ascii "My File!!.CSV") = some (ascii "my_file.csv") := by
  rw [sanitizeFileName_ascii caseRanges _ (by decide)]
  decide

/-- C9, step by step: the lower-cased input is `my file!!.csv`, its extension
`.csv`, its base `my file!!`; the space becomes `_`, the run `!!` one `_`, and the
trailing `_` is trimmed. -/
theorem sanitizeFileName_my_file_steps (caseRanges : Nat → Nat) :
    strings.ToLower caseRanges (ascii "My File!!.CSV") = ascii "my file!!.csv" ∧
    extension (ascii "my file!!.csv") = ascii ".csv" ∧
    baseName (ascii "my file!!.csv") = ascii "my file!!" ∧
    strings.ReplaceAll (ascii "my file!!") 0x20 0x5F = ascii "my_file!!" ∧
    reg.ReplaceAllString (ascii "my_file!!") [0x5F] = ascii "my_file_" ∧
    strings.Trim (ascii "my_file_") [0x2E, 0x5F, 0x2D] = ascii "my_file" := by
  refine ⟨?_, by decide, by decide, by decide, by decide, by decide⟩
  rw [ToLower_ascii caseRanges _ (by decide)]
  decide

/-- C10 (safe-base invariant): for every input whose extension (the suffix of the
lower-cased input starting at its last `.`, empty without a `.`) has at most 1024
bytes, the result is `base ++ ext`, where `base` holds only characters of
`a-z0-9._-`, does not start with `.`, `-` or `_`, and `len(base) + len(ext) ≤ 1024`;
the extension is a suffix of the lower-cased input, copied unfiltered. -/
theorem sanitizeFileName_safe_base (caseRanges : Nat → Nat) (x : GoString)
    (hext : (extension (strings.ToLower caseRanges x)).length ≤ 1024) :
    ∃ base, sanitizeFileName caseRanges x
        = some (base ++ extension (strings.ToLower caseRanges x)) ∧
      (∀ c ∈ base, isSafeByte c = true) ∧
      (∀ c, base.head? = some c → isSeparator c = false) ∧
      base.length + (extension (strings.ToLower caseRanges x)).length ≤ 1024 ∧
      extension (strings.ToLower caseRanges x) <:+ strings.ToLower caseRanges x := by
  refine ⟨(cleanedBase caseRanges x).take
    (1024 - (extension (strings.ToLower caseRanges x)).length), ?_, ?_, ?_, ?_, ?_⟩
  · rw [sanitizeFileName_eq, if_neg (by omega)]
  · intro c hc
    exact cleanedBase_safe caseRanges x c ((List.take_prefix _ _).subset hc)
  · intro c hc
    exact cleanedBase_head caseRanges x c (head?_of_isPrefix (List.take_prefix _ _) c hc)
  · rw [List.length_take]
    omega
  · exact extension_isSuffix _

theorem sanitizeFileName_safe_base_witness :
    (extension (strings.ToLower noCaseRanges (ascii "My Report (v2).PDF"))).length ≤ 1024 ∧
    ∃ base, sanitizeFileName noCaseRanges (ascii "My Report (v2).PDF")
        = some (base ++ extension (strings.ToLower noCaseRanges (ascii "My Report (v2).PDF"))) ∧
      (∀ c ∈ base, isSafeByte c = true) ∧
      (∀ c, base.head? = some c → isSeparator c = false) ∧
      base.length + (extension (strings.ToLower noCaseRanges
        (ascii "My Report (v2).PDF"))).length ≤ 1024 ∧
      extension (strings.ToLower noCaseRanges (ascii "My Report (v2).PDF"))
        <:+ strings.ToLower noCaseRanges (ascii "My Report (v2).PDF") :=
  ⟨by decide, sanitizeFileName_safe_base noCaseRanges (ascii "My Report (v2).PDF") (by decide)⟩

end s3
